import Mathlib

/-!
# Verification of the Semantik string-similarity core

Shallow embedding of `src/streamlit_app.py`: the six lexical similarity
metrics, the semantic (embedding-based) similarity, the severity-band
colour classification, and the control flow of a single comparison
(the body of the `if string1 and string2:` block).

Strings are modelled as `List Char`; floating-point scores as `ℚ` for the
lexical metrics (all of whose arithmetic is exact rational arithmetic) and
as `ℝ` for the semantic score (whose cosine involves square roots).
-/

namespace Semantik

/-! ## Levenshtein -/

/-- Helper for `distance`: given `f = distance s` and `slen = s.length`,
computes `distance (a :: s)` by structural recursion on the second string. -/
def levAux (f : List Char → ℕ) (slen : ℕ) (a : Char) : List Char → ℕ
  | [] => slen + 1
  | b :: t => if a = b then f t else 1 + min (f (b :: t)) (min (levAux f slen a t) (f t))

/-- Modelled from the spec: the library function `distance` of the
`Levenshtein` package (not in `src/`), described by the spec as the
"raw edit distance (minimum insertions/deletions/substitutions to
transform s1 into s2)" — the standard unit-cost edit-distance
recurrence, written with nested structural recursion. -/
def distance : List Char → List Char → ℕ
  | [], t => t.length
  | a :: s, t => levAux (distance s) s.length a t

/-- Embeds `normalize_levenshtein` from `src/streamlit_app.py` (lines 25-31):
`1 - distance / max(len(s1), len(s2))`, returning `1.0` when both strings
are empty. -/
def normalize_levenshtein (s1 s2 : List Char) : ℚ :=
  let lev_dist := distance s1 s2
  let max_len := max s1.length s2.length
  if max_len = 0 then 1
  else 1 - ((lev_dist : ℚ) / (max_len : ℚ))

/-- The normalization formula exactly as the spec words it
("Normalize as `1 - distance / max(len(s1), len(s2))`. Edge case: if both
strings are empty (max length 0), define the result as 1.0"), used to
state the refinement in C3. -/
def spec_normalized_levenshtein (s1 s2 : List Char) : ℚ :=
  if max s1.length s2.length = 0 then 1
  else 1 - ((distance s1 s2 : ℚ) / ((max s1.length s2.length : ℕ) : ℚ))

/-! ## Jaro and Jaro-Winkler

Modelled from the spec: the library functions `jaro` and `jaro_winkler`
of the `Levenshtein` package are not in `src/`; the spec describes them as
the "standard Jaro similarity — accounts for matching characters within a
bounded window and transpositions among matches; already bounded to [0,1];
empty-vs-empty strings define as 1.0, empty-vs-nonempty as 0.0
(library-standard convention)" and "Jaro similarity boosted by a
prefix-match bonus (... bounded prefix length typically 4)". The standard
algorithm: greedy matching of each character of `s1` against the first
still-unmatched equal character of `s2` inside the window
`|i - j| ≤ max(len1,len2)/2 - 1`; transpositions are half the number of
positions where the two matched-character sequences disagree. -/

/-- First index `j ≥ curr` (walking the remaining suffix of `s2` paired with
its usage flags) with `lo ≤ j < hi`, `s2[j] = c` and `j` not yet used. -/
def jaroFind (c : Char) : List Char → List Bool → ℕ → ℕ → ℕ → Option ℕ
  | [], _, _, _, _ => none
  | _ :: _, [], _, _, _ => none
  | b :: t, u :: us, curr, lo, hi =>
    if lo ≤ curr ∧ curr < hi ∧ b = c ∧ u = false then some curr
    else jaroFind c t us (curr + 1) lo hi

/-- Mark index `j` of a usage-flag list as used. -/
def setFlag : List Bool → ℕ → List Bool
  | [], _ => []
  | _ :: us, 0 => true :: us
  | u :: us, j + 1 => u :: setFlag us j

/-- The Jaro matching loop: processes the characters of `s1` (at running
index `i`), greedily matching each into `s2` within the window of radius
`w`; returns the matched characters of `s1` in order together with the
final usage flags of `s2`. -/
def jaroLoop (s2 : List Char) (w : ℕ) : List Char → ℕ → List Bool → List Char × List Bool
  | [], _, used => ([], used)
  | a :: s1, i, used =>
    match jaroFind a s2 used 0 (i - w) (i + w + 1) with
    | some j =>
      let rec_result := jaroLoop s2 w s1 (i + 1) (setFlag used j)
      (a :: rec_result.1, rec_result.2)
    | none => jaroLoop s2 w s1 (i + 1) used

/-- The characters of `s2` whose usage flag is set, in order. -/
def flaggedChars : List Char → List Bool → List Char
  | [], _ => []
  | _ :: _, [] => []
  | b :: t, u :: us => if u then b :: flaggedChars t us else flaggedChars t us

/-- Number of positions where two equal-length sequences disagree. -/
def mismatchCount : List Char → List Char → ℕ
  | a :: s, b :: t => (if a = b then 0 else 1) + mismatchCount s t
  | _, _ => 0

/-- Jaro similarity (see the section comment above). -/
def jaro (s1 s2 : List Char) : ℚ :=
  if s1 = [] ∧ s2 = [] then 1
  else if s1 = [] ∨ s2 = [] then 0
  else
    let w := max s1.length s2.length / 2 - 1
    let res := jaroLoop s2 w s1 0 (List.replicate s2.length false)
    let m := res.1.length
    let t := mismatchCount res.1 (flaggedChars s2 res.2) / 2
    if m = 0 then 0
    else ((m : ℚ) / s1.length + (m : ℚ) / s2.length + ((m : ℚ) - (t : ℚ)) / m) / 3

/-- Length of the common leading substring of two strings. -/
def commonPfxLen : List Char → List Char → ℕ
  | a :: s, b :: t => if a = b then commonPfxLen s t + 1 else 0
  | _, _ => 0

/-- Jaro-Winkler similarity: the Jaro similarity boosted, when above 0.7,
by a common-leading-substring bonus of weight 0.1, the bonus length capped
at 4. -/
def jaro_winkler (s1 s2 : List Char) : ℚ :=
  let sim := jaro s1 s2
  let l := min (commonPfxLen s1 s2) 4
  if sim > 0.7 then sim + (l : ℚ) * (1 / 10) * (1 - sim)
  else sim

/-! ### Proof-layer views of the Jaro matching

These definitions re-express the matching loop as data that can be
analysed one character value at a time: `jaroPairs` records the matched
index pairs the loop produces, `availFrom` and `occsFrom` list a
character's available (resp. all) positions, and `twoPtr` is the classic
two-pointer matching of two ascending position lists under a window —
which the greedy loop is shown to implement, class by class. -/

/-- The matched triples `(character, index in s1, index in s2)` the Jaro
matching loop produces, in processing order. -/
def jaroPairs (s2 : List Char) (w : ℕ) :
    List Char → ℕ → List Bool → List (Char × ℕ × ℕ)
  | [], _, _ => []
  | a :: s1, i, used =>
    match jaroFind a s2 used 0 (i - w) (i + w + 1) with
    | some j => (a, i, j) :: jaroPairs s2 w s1 (i + 1) (setFlag used j)
    | none => jaroPairs s2 w s1 (i + 1) used

/-- Ascending positions (from offset `curr`) of the yet-unused
occurrences of `c`. -/
def availFrom (c : Char) : List Char → List Bool → ℕ → List ℕ
  | b :: t, u :: us, j =>
    if b = c ∧ u = false then j :: availFrom c t us (j + 1)
    else availFrom c t us (j + 1)
  | _, _, _ => []

/-- Ascending positions (from offset `i`) of all occurrences of `c`. -/
def occsFrom (c : Char) : List Char → ℕ → List ℕ
  | [], _ => []
  | b :: t, i => if b = c then i :: occsFrom c t (i + 1) else occsFrom c t (i + 1)

/-- Two-pointer matching of two ascending position lists under window
radius `w`: heads within `w` of each other are matched; otherwise the
smaller head is discarded. -/
def twoPtr (w : ℕ) : List ℕ → List ℕ → List (ℕ × ℕ)
  | i :: I, j :: J =>
    if j + w < i then twoPtr w (i :: I) J
    else if i + w < j then twoPtr w I (j :: J)
    else (i, j) :: twoPtr w I J
  | _, _ => []
termination_by I J => I.length + J.length

/-- The index pairs of the triples carrying character `c`. -/
def classPairs (c : Char) (ps : List (Char × ℕ × ℕ)) : List (ℕ × ℕ) :=
  ps.filterMap (fun p => if p.1 = c then some p.2 else none)

/-- Ascending indices (from offset `curr`) of the set flags. -/
def trueIdxsFrom : List Bool → ℕ → List ℕ
  | [], _ => []
  | u :: us, j => if u then j :: trueIdxsFrom us (j + 1) else trueIdxsFrom us (j + 1)

/-- The characters of `s` at the (in-range) positions `J`. -/
def charsAt (s : List Char) (J : List ℕ) : List Char :=
  J.filterMap (fun j => s[j]?)

/-! ## Ratcliff/Obershelp

Modelled from the spec: `SequenceMatcher(None, s1, s2).ratio()` from
`difflib` is not in `src/`; the spec describes it as the "ratio of 2×
total matched-character count (found via recursive
longest-common-contiguous-substring matching) to the combined length of
both strings". The longest matching block is the pair of positions
`(i, j)` maximizing the common-leading-substring length of the suffixes,
earliest `i` then earliest `j` winning ties; matching recurses on the
parts before and on the parts after the block. -/

/-- The longest matching block `(i, j, size)` of two strings: `size` is the
maximal common-leading-substring length over all suffix pairs, attained
at the smallest `i`, then the smallest `j`; `(0, 0, 0)` when the strings
share no character. -/
def bestBlock (s1 s2 : List Char) : ℕ × ℕ × ℕ :=
  (List.range s1.length).foldl (fun best i =>
    (List.range s2.length).foldl (fun best j =>
      let k := commonPfxLen (s1.drop i) (s2.drop j)
      if best.2.2 < k then (i, j, k) else best) best) (0, 0, 0)

/-- Total matched-character count of the recursive Ratcliff/Obershelp
matching, with explicit fuel bounding the recursion depth (any fuel
`≥ s1.length` gives the true value, since every recursive call strictly
shortens the first string). -/
def ratcliffMF : ℕ → List Char → List Char → ℕ
  | 0, _, _ => 0
  | fuel + 1, s1, s2 =>
    let b := bestBlock s1 s2
    if b.2.2 = 0 then 0
    else
      ratcliffMF fuel (s1.take b.1) (s2.take b.2.1) + b.2.2 +
        ratcliffMF fuel (s1.drop (b.1 + b.2.2)) (s2.drop (b.2.1 + b.2.2))

/-- Total matched-character count of Ratcliff/Obershelp matching. -/
def ratcliffM (s1 s2 : List Char) : ℕ := ratcliffMF s1.length s1 s2

/-- `SequenceMatcher.ratio()`: `2 M / (len1 + len2)`, and `1.0` when both
strings are empty. -/
def ratio (s1 s2 : List Char) : ℚ :=
  if s1.length + s2.length = 0 then 1
  else 2 * (ratcliffM s1 s2 : ℚ) / ((s1.length + s2.length : ℕ) : ℚ)

/-! ## Jaccard and Sorensen-Dice

Modelled from the spec: `textdistance.jaccard.normalized_similarity` and
`textdistance.sorensen.normalized_similarity` are not in `src/`; the spec
describes them as `|intersection| / |union|` and
`2×|intersection| / (|set1| + |set2|)` over the algorithm's default
representation (single characters with multiplicity, i.e. multisets);
the library short-circuits identical sequences to 1 and, otherwise,
sequences of which one is empty to 0. -/

/-- Multiset of the characters of a string. -/
def charBag (s : List Char) : Multiset Char := (s : Multiset Char)

/-- Size of the multiset intersection (per-character minimum count). -/
def interCard (s1 s2 : List Char) : ℕ := (charBag s1 ∩ charBag s2).card

/-- Size of the multiset union (per-character maximum count). -/
def unionCard (s1 s2 : List Char) : ℕ := (charBag s1 ∪ charBag s2).card

/-- Jaccard similarity over character multisets. -/
def jaccard (s1 s2 : List Char) : ℚ :=
  if s1 = s2 then 1
  else if s1 = [] ∨ s2 = [] then 0
  else (interCard s1 s2 : ℚ) / (unionCard s1 s2 : ℚ)

/-- Sorensen-Dice similarity over character multisets. -/
def sorensen (s1 s2 : List Char) : ℚ :=
  if s1 = s2 then 1
  else if s1 = [] ∨ s2 = [] then 0
  else 2 * (interCard s1 s2 : ℚ) / ((s1.length + s2.length : ℕ) : ℚ)

/-! ## Colour classification -/

/-- Embeds `get_color` from `src/streamlit_app.py` (lines 33-44). -/
def get_color (similarity_score : ℚ) : String :=
  if similarity_score ≥ 0.8 then "#4CAF50"      -- Green
  else if similarity_score ≥ 0.6 then "#8BC34A" -- Light Green
  else if similarity_score ≥ 0.4 then "#FFEB3B" -- Yellow
  else if similarity_score ≥ 0.2 then "#FFC107" -- Amber
  else "#F44336"                                 -- Red

/-- The colour legend rendered at lines 179-186 of `src/streamlit_app.py`
("Green (≥0.8): Very similar", …), with each colour's severity band
written in the spec's lower-case wording ("very similar", …). -/
def legend_band (c : String) : String :=
  if c = "#4CAF50" then "very similar"
  else if c = "#8BC34A" then "similar"
  else if c = "#FFEB3B" then "moderately similar"
  else if c = "#FFC107" then "somewhat different"
  else if c = "#F44336" then "very different"
  else "unknown"

/-- Severity band of a score: the legend's label for the colour
`get_color` assigns it. -/
def classify (score : ℚ) : String := legend_band (get_color score)

/-! ## Semantic similarity and the comparison control flow -/

/-- Dot product of two embedding vectors. -/
def dotProd (u v : List ℝ) : ℝ := (List.zipWith (· * ·) u v).sum

/-- Euclidean norm of an embedding vector. -/
noncomputable def vecNorm (u : List ℝ) : ℝ := Real.sqrt (dotProd u u)

/-- Modelled from the spec: `scipy.spatial.distance.cosine` (not in
`src/`) — the cosine distance `1 - u·v / (‖u‖ ‖v‖)`. -/
noncomputable def cosine (u v : List ℝ) : ℝ :=
  1 - dotProd u v / (vecNorm u * vecNorm v)

/-- Embeds `cosine_similarity` from `src/streamlit_app.py` (lines 21-23):
`1 - cosine(embedding1, embedding2)`. -/
noncomputable def cosine_similarity (embedding1 embedding2 : List ℝ) : ℝ :=
  1 - cosine embedding1 embedding2

/-- Outcome of one comparison: the `similarities` mapping (an insertion-
ordered association list), the entries actually rendered, and the error
banner, if any. -/
structure CompareResult where
  similarities : List (String × ℝ)
  displayed : List (String × ℝ)
  errorMsg : Option String

/-- The six lexical entries exactly as inserted at lines 121-136 of
`src/streamlit_app.py`, in evaluation order. -/
noncomputable def lexicalEntries (s1 s2 : List Char) : List (String × ℝ) :=
  [("Levenshtein", ((normalize_levenshtein s1 s2 : ℚ) : ℝ)),
   ("Jaro", ((jaro s1 s2 : ℚ) : ℝ)),
   ("Jaro-Winkler", ((jaro_winkler s1 s2 : ℚ) : ℝ)),
   ("Ratcliff/Obershelp", ((ratio s1 s2 : ℚ) : ℝ)),
   ("Jaccard", ((jaccard s1 s2 : ℚ) : ℝ)),
   ("Sorensen-Dice", ((sorensen s1 s2 : ℚ) : ℝ))]

/-- Embeds the comparison block of `src/streamlit_app.py` (lines 113-191),
which runs when both inputs are non-empty. The provider models
`get_embedding` (lines 13-19), called once per string and able to fail.
The six lexical entries are inserted before the `try` block; the `try`
block (lines 140-191) contains both semantic-score computation and the
rendering of *all* entries; the `except` arm (lines 190-191) renders only
the error banner `st.error(f"Error calculating similarities: {str(e)}")`. -/
noncomputable def compare (provider : List Char → Except String (List ℝ))
    (s1 s2 : List Char) : CompareResult :=
  let lex := lexicalEntries s1 s2
  match provider s1 with
  | .error e => ⟨lex, [], some ("Error calculating similarities: " ++ e)⟩
  | .ok embedding1 =>
    match provider s2 with
    | .error e => ⟨lex, [], some ("Error calculating similarities: " ++ e)⟩
    | .ok embedding2 =>
      let all := lex ++ [("Semantic (OpenAI)", cosine_similarity embedding1 embedding2)]
      ⟨all, all, none⟩

/-! ## Basic Levenshtein lemmas -/

theorem distance_nil_left (t : List Char) : distance [] t = t.length := rfl

theorem distance_nil_right (s : List Char) : distance s [] = s.length := by
  cases s with
  | nil => rfl
  | cons a s => rfl

theorem distance_cons_cons (a b : Char) (s t : List Char) :
    distance (a :: s) (b :: t) =
      if a = b then distance s t
      else 1 + min (distance s (b :: t)) (min (distance (a :: s) t) (distance s t)) := by
  rfl

theorem distance_self (s : List Char) : distance s s = 0 := by
  induction s with
  | nil => rfl
  | cons a s ih => rw [distance_cons_cons, if_pos rfl, ih]

theorem distance_comm (s t : List Char) : distance s t = distance t s := by
  have H : ∀ n (s t : List Char), s.length + t.length = n → distance s t = distance t s := by
    intro n
    induction n using Nat.strong_induction_on with
    | _ n ih =>
      intro s t hn
      cases s with
      | nil => rw [distance_nil_left, distance_nil_right]
      | cons a s =>
        cases t with
        | nil => rw [distance_nil_left, distance_nil_right]
        | cons b t =>
          rw [distance_cons_cons, distance_cons_cons]
          have h1 : distance s (b :: t) = distance (b :: t) s := by
            apply ih (s.length + (b :: t).length) _ s (b :: t) rfl
            simp only [List.length_cons] at hn ⊢; omega
          have h2 : distance (a :: s) t = distance t (a :: s) := by
            apply ih ((a :: s).length + t.length) _ (a :: s) t rfl
            simp only [List.length_cons] at hn ⊢; omega
          have h3 : distance s t = distance t s := by
            apply ih (s.length + t.length) _ s t rfl
            simp only [List.length_cons] at hn ⊢; omega
          by_cases hab : a = b
          · subst hab
            rw [if_pos rfl, if_pos rfl, h3]
          · rw [if_neg hab, if_neg (fun h => hab h.symm), h1, h2, h3]
            omega
  exact H _ s t rfl

/-- `classify` written as one threshold chain: composing `get_color` with
the colour legend yields exactly the five bands at 0.8, 0.6, 0.4, 0.2. -/
theorem classify_eq (q : ℚ) : classify q =
    if 0.8 ≤ q then "very similar"
    else if 0.6 ≤ q then "similar"
    else if 0.4 ≤ q then "moderately similar"
    else if 0.2 ≤ q then "somewhat different"
    else "very different" := by
  unfold classify get_color legend_band
  split_ifs <;> simp_all

/-- C2: the severity-band classification is a pure total function with five
bands, inclusive at the lower bound, no gap or overlap: score≥0.8 is
"very similar", 0.6≤score<0.8 "similar", 0.4≤score<0.6 "moderately
similar", 0.2≤score<0.4 "somewhat different", and score<0.2 (including
negative values) "very different"; the eight probe scores 0.0, 0.1999,
0.2, 0.3999, 0.4, 0.7999, 0.8, 1.0 classify exactly as the claim lists. -/
theorem c2_severity_bands :
    (∀ q : ℚ,
      (classify q = "very similar" ↔ 0.8 ≤ q) ∧
      (classify q = "similar" ↔ 0.6 ≤ q ∧ q < 0.8) ∧
      (classify q = "moderately similar" ↔ 0.4 ≤ q ∧ q < 0.6) ∧
      (classify q = "somewhat different" ↔ 0.2 ≤ q ∧ q < 0.4) ∧
      (classify q = "very different" ↔ q < 0.2)) ∧
    [(0 : ℚ), 0.1999, 0.2, 0.3999, 0.4, 0.7999, 0.8, 1].map classify =
      ["very different", "very different", "somewhat different", "somewhat different",
       "moderately similar", "similar", "very similar", "very similar"] := by
  constructor
  · intro q
    rw [classify_eq]
    split_ifs with h1 h2 h3 h4 <;>
      refine ⟨?_, ?_, ?_, ?_, ?_⟩ <;> simp <;> intros <;>
        first | linarith | (constructor <;> linarith)
  · simp only [List.map, classify_eq]
    norm_num

/-- Instantiation of C2: a score of 1.0 (two identical strings) lands in
the "very similar" band, and −0.5 (an unclamped out-of-range score) in
"very different". -/
theorem c2_severity_bands_witness :
    classify 1 = "very similar" ∧ classify (-(1/2)) = "very different" :=
  ⟨((c2_severity_bands.1 1).1).mpr (by norm_num),
   ((c2_severity_bands.1 (-(1/2))).2.2.2.2).mpr (by norm_num)⟩

theorem distance_le_max (s t : List Char) : distance s t ≤ max s.length t.length := by
  have H : ∀ n (s t : List Char), s.length + t.length = n →
      distance s t ≤ max s.length t.length := by
    intro n
    induction n using Nat.strong_induction_on with
    | _ n ih =>
      intro s t hn
      cases s with
      | nil => rw [distance_nil_left]; simp
      | cons a s =>
        cases t with
        | nil => rw [distance_nil_right]; simp
        | cons b t =>
          rw [distance_cons_cons]
          have h3 : distance s t ≤ max s.length t.length := by
            apply ih (s.length + t.length) _ s t rfl
            simp only [List.length_cons] at hn ⊢; omega
          by_cases hab : a = b
          · rw [if_pos hab]
            simp only [List.length_cons] at h3 ⊢
            omega
          · rw [if_neg hab]
            simp only [List.length_cons] at h3 ⊢
            omega
  exact H _ s t rfl

/-- C3: the normalized Levenshtein score is `1 - distance/max(len1,len2)`
with the both-empty case defined as 1.0, exactly as the spec words it;
for "kitten"/"sitting" the edit distance is 3 and the score `1 - 3/7`. -/
theorem c3_normalized_levenshtein :
    (∀ s1 s2 : List Char,
      normalize_levenshtein s1 s2 = spec_normalized_levenshtein s1 s2) ∧
    distance "kitten".toList "sitting".toList = 3 ∧
    normalize_levenshtein "kitten".toList "sitting".toList = 1 - 3 / 7 := by
  refine ⟨fun s1 s2 => rfl, by decide, ?_⟩
  have h3 : distance "kitten".toList "sitting".toList = 3 := by decide
  unfold normalize_levenshtein
  rw [h3]
  norm_num

/-- C10: when exactly one of the two strings is empty, the normalized
Levenshtein score is 0.0 (the distance equals the non-empty string's
length, which is also the maximum length). -/
theorem c10_one_empty (s1 s2 : List Char)
    (h : (s1 = [] ∧ s2 ≠ []) ∨ (s1 ≠ [] ∧ s2 = [])) :
    normalize_levenshtein s1 s2 = 0 := by
  unfold normalize_levenshtein
  rcases h with ⟨h1, h2⟩ | ⟨h1, h2⟩
  · subst h1
    have hl : s2.length ≠ 0 := by simpa using h2
    rw [distance_nil_left]
    simp only [List.length_nil, Nat.zero_max]
    rw [if_neg hl, div_self (by exact_mod_cast hl)]
    ring
  · subst h2
    have hl : s1.length ≠ 0 := by simpa using h1
    rw [distance_nil_right]
    simp only [List.length_nil, Nat.max_zero]
    rw [if_neg hl, div_self (by exact_mod_cast hl)]
    ring

/-- Instantiation of C10 at the pair ("", "ab"): score 0.0. -/
theorem c10_one_empty_witness : normalize_levenshtein [] ['a', 'b'] = 0 :=
  c10_one_empty [] ['a', 'b'] (Or.inl ⟨rfl, by simp⟩)

/-! ## Jaro: matching a string against itself -/

theorem jaroFind_skip (c : Char) (p : List Char) :
    ∀ (t : List Char) (us : List Bool) (curr lo hi : ℕ),
    jaroFind c (p ++ t) (List.replicate p.length true ++ us) curr lo hi =
      jaroFind c t us (curr + p.length) lo hi := by
  induction p with
  | nil => intro t us curr lo hi; simp
  | cons a p ih =>
    intro t us curr lo hi
    simp only [List.cons_append, List.length_cons, List.replicate_succ, jaroFind,
      List.append_eq]
    rw [if_neg (by simp), ih]
    congr 1
    omega

theorem jaroFind_hit (c : Char) (t : List Char) (us : List Bool) (curr lo hi : ℕ)
    (h1 : lo ≤ curr) (h2 : curr < hi) :
    jaroFind c (c :: t) (false :: us) curr lo hi = some curr := by
  simp [jaroFind, h1, h2]

theorem setFlag_skip (k : ℕ) : ∀ us : List Bool,
    setFlag (List.replicate k true ++ us) k = List.replicate k true ++ setFlag us 0 := by
  induction k with
  | zero => intro us; simp
  | succ k ih =>
    intro us
    simp only [List.replicate_succ, List.cons_append, setFlag, List.append_eq]
    rw [ih]

theorem jaroLoop_self (w : ℕ) : ∀ (rest pre : List Char),
    jaroLoop (pre ++ rest) w rest pre.length
        (List.replicate pre.length true ++ List.replicate rest.length false) =
      (rest, List.replicate (pre.length + rest.length) true) := by
  intro rest
  induction rest with
  | nil => intro pre; simp [jaroLoop]
  | cons a rest ih =>
    intro pre
    have hfind : jaroFind a (pre ++ a :: rest)
        (List.replicate pre.length true ++ List.replicate (a :: rest).length false) 0
        (pre.length - w) (pre.length + w + 1) = some pre.length := by
      simp only [List.length_cons, List.replicate_succ]
      rw [jaroFind_skip, Nat.zero_add]
      exact jaroFind_hit a rest _ pre.length _ _ (Nat.sub_le _ _) (by omega)
    simp only [jaroLoop, hfind]
    have hset : setFlag
        (List.replicate pre.length true ++ List.replicate (a :: rest).length false)
        pre.length =
        List.replicate (pre.length + 1) true ++ List.replicate rest.length false := by
      simp only [List.length_cons, List.replicate_succ]
      rw [setFlag_skip]
      show List.replicate pre.length true ++ (true :: List.replicate rest.length false) = _
      rw [List.append_cons, ← List.replicate_succ', List.replicate_succ, List.cons_append]
    rw [hset]
    have hres := ih (pre ++ [a])
    rw [List.append_assoc] at hres
    simp only [List.cons_append, List.nil_append, List.length_append,
      List.length_cons, List.length_nil] at hres
    rw [hres]
    simp only [List.length_cons, Prod.mk.injEq, true_and]
    congr 1
    omega

theorem flaggedChars_all_true : ∀ s : List Char,
    flaggedChars s (List.replicate s.length true) = s := by
  intro s
  induction s with
  | nil => rfl
  | cons a s ih => simp [flaggedChars, List.replicate_succ, ih]

theorem mismatchCount_self : ∀ s : List Char, mismatchCount s s = 0 := by
  intro s
  induction s with
  | nil => rfl
  | cons a s ih => simp [mismatchCount, ih]

/-! ### Jaro: bounds -/

theorem jaroFind_some (c : Char) : ∀ (t : List Char) (us : List Bool) (curr lo hi j : ℕ),
    jaroFind c t us curr lo hi = some j →
    ∃ k, j = curr + k ∧ k < us.length ∧ us[k]? = some false := by
  intro t
  induction t with
  | nil => intro us curr lo hi j h; simp [jaroFind] at h
  | cons b t ih =>
    intro us curr lo hi j h
    cases us with
    | nil => simp [jaroFind] at h
    | cons u us =>
      rw [jaroFind] at h
      split_ifs at h with hc
      · obtain ⟨-, -, -, hu⟩ := hc
        subst hu
        simp only [Option.some.injEq] at h
        exact ⟨0, by omega, by simp, by simp⟩
      · obtain ⟨k, hk, hlen, hget⟩ := ih us (curr + 1) lo hi j h
        exact ⟨k + 1, by omega, by simpa using hlen, by simpa using hget⟩

theorem setFlag_length : ∀ (us : List Bool) (j : ℕ), (setFlag us j).length = us.length := by
  intro us
  induction us with
  | nil => intro j; rfl
  | cons u us ih =>
    intro j
    cases j with
    | zero => rfl
    | succ j => simp [setFlag, ih]

theorem setFlag_count (j : ℕ) : ∀ us : List Bool, us[j]? = some false →
    (setFlag us j).count true = us.count true + 1 := by
  induction j with
  | zero =>
    intro us h
    cases us with
    | nil => simp at h
    | cons u us =>
      simp only [List.getElem?_cons_zero, Option.some.injEq] at h
      subst h
      simp [setFlag, List.count_cons]
  | succ j ih =>
    intro us h
    cases us with
    | nil => simp at h
    | cons u us =>
      simp only [List.getElem?_cons_succ] at h
      simp only [setFlag, List.count_cons, ih us h]
      ring

theorem jaroLoop_fst_le (s2 : List Char) (w : ℕ) : ∀ (s1 : List Char) (i : ℕ) (us : List Bool),
    (jaroLoop s2 w s1 i us).1.length ≤ s1.length := by
  intro s1
  induction s1 with
  | nil => intro i us; simp [jaroLoop]
  | cons a s1 ih =>
    intro i us
    rw [jaroLoop]
    cases h : jaroFind a s2 us 0 (i - w) (i + w + 1) with
    | some j => simpa using ih (i + 1) (setFlag us j)
    | none => simpa using Nat.le_succ_of_le (ih (i + 1) us)

theorem jaroLoop_snd_length (s2 : List Char) (w : ℕ) :
    ∀ (s1 : List Char) (i : ℕ) (us : List Bool),
    (jaroLoop s2 w s1 i us).2.length = us.length := by
  intro s1
  induction s1 with
  | nil => intro i us; rfl
  | cons a s1 ih =>
    intro i us
    rw [jaroLoop]
    cases h : jaroFind a s2 us 0 (i - w) (i + w + 1) with
    | some j =>
      have hrec := ih (i + 1) (setFlag us j)
      rw [setFlag_length] at hrec
      exact hrec
    | none => exact ih (i + 1) us

theorem jaroLoop_count (s2 : List Char) (w : ℕ) :
    ∀ (s1 : List Char) (i : ℕ) (us : List Bool),
    (jaroLoop s2 w s1 i us).2.count true =
      us.count true + (jaroLoop s2 w s1 i us).1.length := by
  intro s1
  induction s1 with
  | nil => intro i us; simp [jaroLoop]
  | cons a s1 ih =>
    intro i us
    rw [jaroLoop]
    cases h : jaroFind a s2 us 0 (i - w) (i + w + 1) with
    | some j =>
      obtain ⟨k, hk, hlen, hget⟩ := jaroFind_some a s2 us 0 _ _ j h
      have hget' : us[j]? = some false := by
        have hj : j = k := by omega
        rw [hj]; exact hget
      have hrec := ih (i + 1) (setFlag us j)
      have hsc := setFlag_count j us hget'
      simp only [hrec, hsc, List.length_cons]
      omega
    | none => simpa using ih (i + 1) us

theorem mismatchCount_le : ∀ x y : List Char, mismatchCount x y ≤ x.length := by
  intro x
  induction x with
  | nil => intro y; simp [mismatchCount]
  | cons a x ih =>
    intro y
    cases y with
    | nil => simp [mismatchCount]
    | cons b y =>
      rw [mismatchCount]
      have := ih y
      simp only [List.length_cons]
      split_ifs <;> omega

/-- The matched-character count of the Jaro loop, run on fresh flags, is
bounded by both string lengths. -/
theorem jaro_m_le (s1 s2 : List Char) (w : ℕ) :
    (jaroLoop s2 w s1 0 (List.replicate s2.length false)).1.length ≤ s1.length ∧
    (jaroLoop s2 w s1 0 (List.replicate s2.length false)).1.length ≤ s2.length := by
  refine ⟨jaroLoop_fst_le s2 w s1 0 _, ?_⟩
  have hc := jaroLoop_count s2 w s1 0 (List.replicate s2.length false)
  have hcr : (List.replicate s2.length false).count true = 0 := by
    rw [List.count_replicate]
    simp
  rw [hcr, Nat.zero_add] at hc
  calc (jaroLoop s2 w s1 0 (List.replicate s2.length false)).1.length
      = (jaroLoop s2 w s1 0 (List.replicate s2.length false)).2.count true := hc.symm
    _ ≤ (jaroLoop s2 w s1 0 (List.replicate s2.length false)).2.length :=
        List.count_le_length _ _
    _ = s2.length := by rw [jaroLoop_snd_length]; simp

/-- Bounds of the Jaro scoring formula, given the combinatorial facts the
matching loop guarantees. -/
theorem jaro_formula_bounds (m t n1 n2 : ℕ) (hm : 0 < m) (h1 : m ≤ n1) (h2 : m ≤ n2)
    (ht : t ≤ m) :
    0 ≤ ((m : ℚ) / n1 + (m : ℚ) / n2 + ((m : ℚ) - (t : ℚ)) / m) / 3 ∧
    ((m : ℚ) / n1 + (m : ℚ) / n2 + ((m : ℚ) - (t : ℚ)) / m) / 3 ≤ 1 := by
  have hmq : (0 : ℚ) < m := by exact_mod_cast hm
  have hn1q : (0 : ℚ) < n1 := by exact_mod_cast lt_of_lt_of_le hm h1
  have hn2q : (0 : ℚ) < n2 := by exact_mod_cast lt_of_lt_of_le hm h2
  have htq : (t : ℚ) ≤ m := by exact_mod_cast ht
  have htq0 : (0 : ℚ) ≤ t := by positivity
  have a1 : (0 : ℚ) ≤ (m : ℚ) / n1 := by positivity
  have a2 : (0 : ℚ) ≤ (m : ℚ) / n2 := by positivity
  have a3 : (0 : ℚ) ≤ ((m : ℚ) - t) / m := div_nonneg (by linarith) hmq.le
  have b1 : (m : ℚ) / n1 ≤ 1 := (div_le_one hn1q).mpr (by exact_mod_cast h1)
  have b2 : (m : ℚ) / n2 ≤ 1 := (div_le_one hn2q).mpr (by exact_mod_cast h2)
  have b3 : ((m : ℚ) - t) / m ≤ 1 := (div_le_one hmq).mpr (by linarith)
  constructor <;> linarith

/-- The Jaro similarity lies in [0, 1]. -/
theorem jaro_bounds (s1 s2 : List Char) : 0 ≤ jaro s1 s2 ∧ jaro s1 s2 ≤ 1 := by
  simp only [jaro]
  split_ifs with h1 h2 h3
  · norm_num
  · norm_num
  · norm_num
  · push_neg at h2
    obtain ⟨hn1, hn2⟩ := h2
    have hl1 : 0 < s1.length := List.length_pos.mpr hn1
    have hl2 : 0 < s2.length := List.length_pos.mpr hn2
    have hmle := jaro_m_le s1 s2 (max s1.length s2.length / 2 - 1)
    have hmm : 0 < (jaroLoop s2 (max s1.length s2.length / 2 - 1) s1 0
        (List.replicate s2.length false)).1.length := Nat.pos_of_ne_zero h3
    have htle : mismatchCount
        (jaroLoop s2 (max s1.length s2.length / 2 - 1) s1 0
          (List.replicate s2.length false)).1
        (flaggedChars s2 (jaroLoop s2 (max s1.length s2.length / 2 - 1) s1 0
          (List.replicate s2.length false)).2) / 2 ≤
        (jaroLoop s2 (max s1.length s2.length / 2 - 1) s1 0
          (List.replicate s2.length false)).1.length :=
      le_trans (Nat.div_le_self _ _) (mismatchCount_le _ _)
    exact jaro_formula_bounds _ _ _ _ hmm hmle.1 hmle.2 htle

/-! ### Ratcliff/Obershelp lemmas -/

theorem commonPfxLen_le_left : ∀ s t : List Char, commonPfxLen s t ≤ s.length := by
  intro s
  induction s with
  | nil => intro t; simp [commonPfxLen]
  | cons a s ih =>
    intro t
    cases t with
    | nil => simp [commonPfxLen]
    | cons b t =>
      rw [commonPfxLen]
      have := ih t
      split_ifs <;> simp
      omega

theorem commonPfxLen_le_right : ∀ s t : List Char, commonPfxLen s t ≤ t.length := by
  intro s
  induction s with
  | nil => intro t; simp [commonPfxLen]
  | cons a s ih =>
    intro t
    cases t with
    | nil => simp [commonPfxLen]
    | cons b t =>
      rw [commonPfxLen]
      have := ih t
      split_ifs <;> simp
      omega

theorem commonPfxLen_self : ∀ s : List Char, commonPfxLen s s = s.length := by
  intro s
  induction s with
  | nil => rfl
  | cons a s ih => simp [commonPfxLen, ih]

theorem foldl_invariant {α β : Type} (f : β → α → β) (P : β → Prop) :
    ∀ (l : List α) (b : β), P b → (∀ b' x, x ∈ l → P b' → P (f b' x)) → P (l.foldl f b) := by
  intro l
  induction l with
  | nil => intro b hb _; exact hb
  | cons x l ih =>
    intro b hb hstep
    exact ih (f b x) (hstep b x (by simp) hb)
      (fun b' y hy hb' => hstep b' y (by simp [hy]) hb')

theorem foldl_fixed {α β : Type} (f : β → α → β) (b : β) :
    ∀ l : List α, (∀ x ∈ l, f b x = b) → l.foldl f b = b := by
  intro l
  induction l with
  | nil => intro _; rfl
  | cons x l ih =>
    intro h
    rw [List.foldl_cons, h x (by simp)]
    exact ih (fun y hy => h y (by simp [hy]))

/-- Either no characters match (`(0,0,0)`) or `bestBlock` names a genuine
maximal block inside both strings. -/
theorem bestBlock_spec (s1 s2 : List Char) :
    bestBlock s1 s2 = (0, 0, 0) ∨
    (commonPfxLen (s1.drop (bestBlock s1 s2).1) (s2.drop (bestBlock s1 s2).2.1) =
        (bestBlock s1 s2).2.2 ∧
      (bestBlock s1 s2).1 < s1.length ∧ (bestBlock s1 s2).2.1 < s2.length ∧
      0 < (bestBlock s1 s2).2.2) := by
  unfold bestBlock
  apply foldl_invariant _
    (fun best => best = (0, 0, 0) ∨
      (commonPfxLen (s1.drop best.1) (s2.drop best.2.1) = best.2.2 ∧
        best.1 < s1.length ∧ best.2.1 < s2.length ∧ 0 < best.2.2))
  · exact Or.inl rfl
  · intro b' i hi hb'
    apply foldl_invariant _
      (fun best => best = (0, 0, 0) ∨
        (commonPfxLen (s1.drop best.1) (s2.drop best.2.1) = best.2.2 ∧
          best.1 < s1.length ∧ best.2.1 < s2.length ∧ 0 < best.2.2))
    · exact hb'
    · intro b'' j hj hb''
      dsimp only
      split_ifs with hlt
      · exact Or.inr ⟨rfl, List.mem_range.mp hi, List.mem_range.mp hj,
          lt_of_le_of_lt (Nat.zero_le _) hlt⟩
      · exact hb''

/-- The recursive matched-character count never exceeds either length. -/
theorem ratcliffMF_le : ∀ (fuel : ℕ) (s1 s2 : List Char),
    ratcliffMF fuel s1 s2 ≤ min s1.length s2.length := by
  intro fuel
  induction fuel with
  | zero => intro s1 s2; simp [ratcliffMF]
  | succ fuel ih =>
    intro s1 s2
    simp only [ratcliffMF]
    rcases bestBlock_spec s1 s2 with hb | ⟨hcpl, hi, hj, hk⟩
    · rw [hb]
      simp
    · rw [if_neg (by omega)]
      have h1 := ih (s1.take (bestBlock s1 s2).1) (s2.take (bestBlock s1 s2).2.1)
      have h2 := ih (s1.drop ((bestBlock s1 s2).1 + (bestBlock s1 s2).2.2))
        (s2.drop ((bestBlock s1 s2).2.1 + (bestBlock s1 s2).2.2))
      have hkl1 : (bestBlock s1 s2).2.2 ≤ s1.length - (bestBlock s1 s2).1 := by
        rw [← hcpl]
        simpa using
          commonPfxLen_le_left (s1.drop (bestBlock s1 s2).1) (s2.drop (bestBlock s1 s2).2.1)
      have hkl2 : (bestBlock s1 s2).2.2 ≤ s2.length - (bestBlock s1 s2).2.1 := by
        rw [← hcpl]
        simpa using
          commonPfxLen_le_right (s1.drop (bestBlock s1 s2).1) (s2.drop (bestBlock s1 s2).2.1)
      simp only [List.length_take, List.length_drop] at h1 h2
      omega

theorem ratcliffMF_nil : ∀ fuel : ℕ, ratcliffMF fuel [] [] = 0 := by
  intro fuel
  cases fuel with
  | zero => rfl
  | succ fuel => rfl

theorem bestBlock_self (s : List Char) (hs : s ≠ []) :
    bestBlock s s = (0, 0, s.length) := by
  have hlen : 0 < s.length := List.length_pos.mpr hs
  have hbound : ∀ i j : ℕ, commonPfxLen (s.drop i) (s.drop j) ≤ s.length :=
    fun i j => le_trans (commonPfxLen_le_left _ _) (by simp)
  unfold bestBlock
  obtain ⟨n, hn⟩ : ∃ n, s.length = n + 1 := ⟨s.length - 1, by omega⟩
  rw [hn, List.range_succ_eq_map, List.foldl_cons]
  have hinner1 : List.foldl
      (fun best j =>
        let k := commonPfxLen (s.drop 0) (s.drop j)
        if best.2.2 < k then ((0 : ℕ), j, k) else best) (0, 0, 0)
      (0 :: List.map Nat.succ (List.range n)) = (0, 0, n + 1) := by
    rw [List.foldl_cons]
    have hfirst : (let k := commonPfxLen (s.drop 0) (s.drop 0)
        if ((0 : ℕ), (0 : ℕ), (0 : ℕ)).2.2 < k then ((0 : ℕ), (0 : ℕ), k)
        else ((0 : ℕ), (0 : ℕ), (0 : ℕ))) = ((0 : ℕ), (0 : ℕ), n + 1) := by
      simp only [List.drop_zero, commonPfxLen_self, hn]
      rw [if_pos (by omega)]
    rw [hfirst]
    apply foldl_fixed
    intro j _
    dsimp only
    rw [if_neg (by have := hbound 0 j; omega)]
  rw [hinner1]
  apply foldl_fixed
  intro i _
  apply foldl_fixed
  intro j _
  dsimp only
  rw [if_neg (by have := hbound i j; omega)]

theorem ratcliffM_self (s : List Char) (hs : s ≠ []) : ratcliffM s s = s.length := by
  have hlen : 0 < s.length := List.length_pos.mpr hs
  obtain ⟨n, hn⟩ : ∃ n, s.length = n + 1 := ⟨s.length - 1, by omega⟩
  unfold ratcliffM
  rw [hn]
  simp only [ratcliffMF]
  rw [bestBlock_self s hs]
  simp only
  rw [if_neg (by omega)]
  simp only [List.take_zero, Nat.zero_add, List.drop_length]
  simp only [ratcliffMF_nil]
  omega

theorem ratio_self (s : List Char) : ratio s s = 1 := by
  by_cases hs : s = []
  · subst hs; rfl
  · have hlen : 0 < s.length := List.length_pos.mpr hs
    unfold ratio
    rw [if_neg (by omega), ratcliffM_self s hs]
    have hq : ((s.length + s.length : ℕ) : ℚ) ≠ 0 := by
      exact_mod_cast (by omega : s.length + s.length ≠ 0)
    field_simp
    ring

theorem ratio_bounds (s1 s2 : List Char) : 0 ≤ ratio s1 s2 ∧ ratio s1 s2 ≤ 1 := by
  unfold ratio
  split_ifs with h
  · norm_num
  · have hM : ratcliffM s1 s2 ≤ min s1.length s2.length := ratcliffMF_le _ _ _
    have hpos : 0 < s1.length + s2.length := Nat.pos_of_ne_zero h
    have hposq : (0 : ℚ) < ((s1.length + s2.length : ℕ) : ℚ) := by exact_mod_cast hpos
    constructor
    · positivity
    · rw [div_le_one hposq]
      have h2M : 2 * ratcliffM s1 s2 ≤ s1.length + s2.length := by omega
      exact_mod_cast h2M

/-! ### Jaccard and Sorensen-Dice lemmas -/

theorem charBag_card (s : List Char) : (charBag s).card = s.length := by
  simp [charBag]

theorem interCard_le_left (s t : List Char) : interCard s t ≤ s.length := by
  have := Multiset.card_le_card (Multiset.inter_le_left (charBag s) (charBag t))
  rwa [charBag_card] at this

theorem interCard_le_right (s t : List Char) : interCard s t ≤ t.length := by
  have := Multiset.card_le_card (Multiset.inter_le_right (charBag s) (charBag t))
  rwa [charBag_card] at this

theorem interCard_le_union (s t : List Char) : interCard s t ≤ unionCard s t :=
  Multiset.card_le_card
    (le_trans (Multiset.inter_le_left _ _) (Multiset.le_union_left _ _))

theorem length_le_unionCard (s t : List Char) : s.length ≤ unionCard s t := by
  have := Multiset.card_le_card (Multiset.le_union_left (charBag s) (charBag t))
  rwa [charBag_card] at this

theorem interCard_comm (s t : List Char) : interCard s t = interCard t s := by
  unfold interCard
  rw [Multiset.inter_comm]

theorem unionCard_comm (s t : List Char) : unionCard s t = unionCard t s := by
  unfold unionCard
  rw [Multiset.union_comm]

theorem jaccard_self (s : List Char) : jaccard s s = 1 := by
  simp [jaccard]

theorem sorensen_self (s : List Char) : sorensen s s = 1 := by
  simp [sorensen]

theorem jaccard_comm (s t : List Char) : jaccard s t = jaccard t s := by
  unfold jaccard
  rcases eq_or_ne s t with h | h
  · rw [h]
  · rw [if_neg h, if_neg (Ne.symm h),
      if_congr (or_comm (a := s = []) (b := t = [])) rfl rfl,
      interCard_comm, unionCard_comm]

theorem sorensen_comm (s t : List Char) : sorensen s t = sorensen t s := by
  unfold sorensen
  rcases eq_or_ne s t with h | h
  · rw [h]
  · rw [if_neg h, if_neg (Ne.symm h),
      if_congr (or_comm (a := s = []) (b := t = [])) rfl rfl,
      interCard_comm, Nat.add_comm]

theorem jaccard_bounds (s t : List Char) : 0 ≤ jaccard s t ∧ jaccard s t ≤ 1 := by
  unfold jaccard
  split_ifs with h1 h2
  · norm_num
  · norm_num
  · push_neg at h2
    have hu : 0 < unionCard s t :=
      lt_of_lt_of_le (List.length_pos.mpr h2.1) (length_le_unionCard s t)
    have huq : (0 : ℚ) < (unionCard s t : ℚ) := by exact_mod_cast hu
    constructor
    · positivity
    · rw [div_le_one huq]
      exact_mod_cast interCard_le_union s t

theorem sorensen_bounds (s t : List Char) : 0 ≤ sorensen s t ∧ sorensen s t ≤ 1 := by
  unfold sorensen
  split_ifs with h1 h2
  · norm_num
  · norm_num
  · push_neg at h2
    have hpos : 0 < s.length + t.length := by
      have := List.length_pos.mpr h2.1
      omega
    have hposq : (0 : ℚ) < ((s.length + t.length : ℕ) : ℚ) := by exact_mod_cast hpos
    constructor
    · positivity
    · rw [div_le_one hposq]
      have : 2 * interCard s t ≤ s.length + t.length := by
        have := interCard_le_left s t
        have := interCard_le_right s t
        omega
      exact_mod_cast this

/-! ### Jaro-Winkler and normalized-Levenshtein lemmas -/

theorem commonPfxLen_comm : ∀ s t : List Char, commonPfxLen s t = commonPfxLen t s := by
  intro s
  induction s with
  | nil => intro t; cases t <;> simp [commonPfxLen]
  | cons a s ih =>
    intro t
    cases t with
    | nil => simp [commonPfxLen]
    | cons b t =>
      rw [commonPfxLen, commonPfxLen, ih t]
      by_cases hab : a = b
      · rw [if_pos hab, if_pos hab.symm]
      · rw [if_neg hab, if_neg (fun h => hab h.symm)]

theorem jaro_winkler_bounds (s1 s2 : List Char) :
    0 ≤ jaro_winkler s1 s2 ∧ jaro_winkler s1 s2 ≤ 1 := by
  simp only [jaro_winkler]
  obtain ⟨hj0, hj1⟩ := jaro_bounds s1 s2
  split_ifs with h
  · have hl4 : ((min (commonPfxLen s1 s2) 4 : ℕ) : ℚ) ≤ 4 := by
      exact_mod_cast min_le_right (commonPfxLen s1 s2) 4
    have hl0 : (0 : ℚ) ≤ ((min (commonPfxLen s1 s2) 4 : ℕ) : ℚ) := by positivity
    have hkey : ((min (commonPfxLen s1 s2) 4 : ℕ) : ℚ) * (1 / 10) * (1 - jaro s1 s2) ≤
        1 - jaro s1 s2 := by nlinarith
    have hpos : 0 ≤ ((min (commonPfxLen s1 s2) 4 : ℕ) : ℚ) * (1 / 10) * (1 - jaro s1 s2) := by
      have : (0 : ℚ) ≤ 1 - jaro s1 s2 := by linarith
      positivity
    constructor <;> linarith
  · exact ⟨hj0, hj1⟩

theorem normalize_levenshtein_self (s : List Char) : normalize_levenshtein s s = 1 := by
  simp only [normalize_levenshtein]
  rw [distance_self]
  split_ifs <;> simp

theorem normalize_levenshtein_comm (s t : List Char) :
    normalize_levenshtein s t = normalize_levenshtein t s := by
  unfold normalize_levenshtein
  rw [distance_comm, Nat.max_comm]

theorem normalize_levenshtein_bounds (s t : List Char) :
    0 ≤ normalize_levenshtein s t ∧ normalize_levenshtein s t ≤ 1 := by
  simp only [normalize_levenshtein]
  split_ifs with h
  · norm_num
  · have hpos : 0 < max s.length t.length := Nat.pos_of_ne_zero h
    have hposq : (0 : ℚ) < ((max s.length t.length : ℕ) : ℚ) := by exact_mod_cast hpos
    have hd : distance s t ≤ max s.length t.length := distance_le_max s t
    have hdq : ((distance s t : ℕ) : ℚ) / ((max s.length t.length : ℕ) : ℚ) ≤ 1 := by
      rw [div_le_one hposq]
      exact_mod_cast hd
    have hd0 : (0 : ℚ) ≤ ((distance s t : ℕ) : ℚ) / ((max s.length t.length : ℕ) : ℚ) := by
      positivity
    constructor <;> linarith

theorem jaro_self (s : List Char) : jaro s s = 1 := by
  by_cases hs : s = []
  · subst hs; rfl
  · unfold jaro
    rw [if_neg (by simp [hs]), if_neg (by simp [hs])]
    have hloop := jaroLoop_self (max s.length s.length / 2 - 1) s []
    simp only [List.nil_append, List.length_nil, List.replicate_zero, Nat.zero_add,
      List.replicate, Nat.zero_add] at hloop
    simp only [hloop, flaggedChars_all_true, mismatchCount_self, Nat.zero_div]
    have hn : s.length ≠ 0 := by simpa using hs
    rw [if_neg hn]
    have hq : (s.length : ℚ) ≠ 0 := by exact_mod_cast hn
    field_simp
    ring

/-! ### Jaro symmetry: the greedy loop is a per-class two-pointer merge -/

theorem mismatchCount_comm : ∀ x y : List Char, mismatchCount x y = mismatchCount y x := by
  intro x
  induction x with
  | nil => intro y; cases y <;> rfl
  | cons a x ih =>
    intro y
    cases y with
    | nil => rfl
    | cons b y =>
      rw [mismatchCount, mismatchCount, ih y]
      by_cases hab : a = b
      · rw [if_pos hab, if_pos hab.symm]
      · rw [if_neg hab, if_neg (fun h => hab h.symm)]

theorem jaroLoop_fst_eq (s2 : List Char) (w : ℕ) :
    ∀ (s1 : List Char) (i : ℕ) (us : List Bool),
    (jaroLoop s2 w s1 i us).1 = (jaroPairs s2 w s1 i us).map (fun p => p.1) := by
  intro s1
  induction s1 with
  | nil => intro i us; rfl
  | cons a s1 ih =>
    intro i us
    rw [jaroLoop, jaroPairs]
    cases h : jaroFind a s2 us 0 (i - w) (i + w + 1) with
    | some j => simpa using ih (i + 1) (setFlag us j)
    | none => simpa using ih (i + 1) us

theorem occsFrom_ge (c : Char) : ∀ (s : List Char) (i : ℕ), ∀ x ∈ occsFrom c s i, i ≤ x := by
  intro s
  induction s with
  | nil => intro i x hx; simp [occsFrom] at hx
  | cons b s ih =>
    intro i x hx
    rw [occsFrom] at hx
    split_ifs at hx with hb
    · rcases List.mem_cons.mp hx with h | h
      · omega
      · have := ih (i + 1) x h; omega
    · have := ih (i + 1) x hx; omega

theorem availFrom_ge (c : Char) : ∀ (t : List Char) (us : List Bool) (curr : ℕ),
    ∀ x ∈ availFrom c t us curr, curr ≤ x := by
  intro t
  induction t with
  | nil => intro us curr x hx; simp [availFrom] at hx
  | cons b t ih =>
    intro us curr x hx
    cases us with
    | nil => simp [availFrom] at hx
    | cons u us =>
      rw [availFrom] at hx
      split_ifs at hx with hb
      · rcases List.mem_cons.mp hx with h | h
        · omega
        · have := ih us (curr + 1) x h; omega
      · have := ih us (curr + 1) x hx; omega

theorem availFrom_sorted (c : Char) : ∀ (t : List Char) (us : List Bool) (curr : ℕ),
    List.Sorted (· < ·) (availFrom c t us curr) := by
  intro t
  induction t with
  | nil => intro us curr; simp [availFrom]
  | cons b t ih =>
    intro us curr
    cases us with
    | nil => simp [availFrom]
    | cons u us =>
      rw [availFrom]
      split_ifs with hb
      · rw [List.sorted_cons]
        exact ⟨fun x hx => lt_of_lt_of_le (by omega) (availFrom_ge c t us (curr + 1) x hx),
          ih us (curr + 1)⟩
      · exact ih us (curr + 1)

theorem availFrom_mem (c : Char) : ∀ (t : List Char) (us : List Bool) (curr x : ℕ),
    x ∈ availFrom c t us curr →
    ∃ k, x = curr + k ∧ t[k]? = some c ∧ us[k]? = some false := by
  intro t
  induction t with
  | nil => intro us curr x hx; simp [availFrom] at hx
  | cons b t ih =>
    intro us curr x hx
    cases us with
    | nil => simp [availFrom] at hx
    | cons u us =>
      rw [availFrom] at hx
      split_ifs at hx with hb
      · rcases List.mem_cons.mp hx with h | h
        · exact ⟨0, by omega, by simp [hb.1], by simp [hb.2]⟩
        · obtain ⟨k, hk, hc, hu⟩ := ih us (curr + 1) x h
          exact ⟨k + 1, by omega, by simpa using hc, by simpa using hu⟩
      · obtain ⟨k, hk, hc, hu⟩ := ih us (curr + 1) x hx
        exact ⟨k + 1, by omega, by simpa using hc, by simpa using hu⟩

theorem avail_replicate (c : Char) : ∀ (t : List Char) (n curr : ℕ), t.length ≤ n →
    availFrom c t (List.replicate n false) curr = occsFrom c t curr := by
  intro t
  induction t with
  | nil => intro n curr _; cases n <;> rfl
  | cons b t ih =>
    intro n curr hn
    cases n with
    | zero => simp at hn
    | succ n =>
      rw [List.replicate_succ, availFrom, occsFrom]
      by_cases hb : b = c
      · rw [if_pos ⟨hb, rfl⟩, if_pos hb, ih n (curr + 1) (by simpa using hn)]
      · rw [if_neg (fun h => hb h.1), if_neg hb, ih n (curr + 1) (by simpa using hn)]

theorem setFlag_getElem_ne : ∀ (us : List Bool) (j k : ℕ), j ≠ k →
    (setFlag us j)[k]? = us[k]? := by
  intro us
  induction us with
  | nil => intro j k _; rfl
  | cons u us ih =>
    intro j k hjk
    cases j with
    | zero =>
      cases k with
      | zero => omega
      | succ k => simp [setFlag]
    | succ j =>
      cases k with
      | zero => simp [setFlag]
      | succ k => simpa [setFlag] using ih j k (by omega)

theorem setFlag_getElem_self : ∀ (us : List Bool) (j : ℕ) (u : Bool), us[j]? = some u →
    (setFlag us j)[j]? = some true := by
  intro us
  induction us with
  | nil => intro j u h; simp at h
  | cons u0 us ih =>
    intro j u h
    cases j with
    | zero => simp [setFlag]
    | succ j =>
      simp only [List.getElem?_cons_succ] at h
      simpa [setFlag] using ih j u h

theorem avail_setFlag_ne (c a : Char) (hne : a ≠ c) :
    ∀ (t : List Char) (us : List Bool) (k curr : ℕ), t[k]? = some a →
    availFrom c t (setFlag us k) curr = availFrom c t us curr := by
  intro t
  induction t with
  | nil => intro us k curr h; simp at h
  | cons b t ih =>
    intro us k curr h
    cases us with
    | nil => rfl
    | cons u us =>
      cases k with
      | zero =>
        simp only [List.getElem?_cons_zero, Option.some.injEq] at h
        subst h
        rw [show setFlag (u :: us) 0 = true :: us from rfl, availFrom, availFrom]
        rw [if_neg (by simp [hne]), if_neg (fun hc => hne hc.1)]
      | succ k =>
        simp only [List.getElem?_cons_succ] at h
        rw [show setFlag (u :: us) (k + 1) = u :: setFlag us k from rfl, availFrom, availFrom]
        rw [ih us k (curr + 1) h]

theorem avail_setFlag_self (c : Char) :
    ∀ (t : List Char) (us : List Bool) (k curr : ℕ), t[k]? = some c →
    us[k]? = some false →
    availFrom c t (setFlag us k) curr = (availFrom c t us curr).erase (curr + k) := by
  intro t
  induction t with
  | nil => intro us k curr h _; simp at h
  | cons b t ih =>
    intro us k curr hc hu
    cases us with
    | nil => simp at hu
    | cons u us =>
      cases k with
      | zero =>
        simp only [List.getElem?_cons_zero, Option.some.injEq] at hc hu
        subst hc
        subst hu
        rw [show setFlag (false :: us) 0 = true :: us from rfl, availFrom, availFrom]
        rw [if_neg (by simp), if_pos ⟨rfl, rfl⟩]
        simp [List.erase_cons_head]
      | succ k =>
        simp only [List.getElem?_cons_succ] at hc hu
        rw [show setFlag (u :: us) (k + 1) = u :: setFlag us k from rfl, availFrom, availFrom]
        rw [ih us k (curr + 1) hc hu]
        by_cases hb : b = c ∧ u = false
        · rw [if_pos hb, if_pos hb, List.erase_cons_tail (by simp)]
          rw [show curr + 1 + k = curr + (k + 1) from by omega]
        · rw [if_neg hb, if_neg hb,
            show curr + 1 + k = curr + (k + 1) from by omega]

theorem find_split {α : Type} (p : α → Bool) : ∀ (A : List α) (x : α), A.find? p = some x →
    ∃ L R, A = L ++ x :: R ∧ (∀ y ∈ L, p y = false) ∧ p x = true := by
  intro A
  induction A with
  | nil => intro x h; simp at h
  | cons a A ih =>
    intro x h
    cases hpa : p a with
    | true =>
      rw [List.find?_cons_of_pos _ hpa] at h
      obtain rfl : a = x := by simpa using h
      exact ⟨[], A, rfl, by simp, hpa⟩
    | false =>
      rw [List.find?_cons_of_neg _ (by simp [hpa])] at h
      obtain ⟨L, R, hA, hL, hx⟩ := ih x h
      exact ⟨a :: L, R, by rw [hA, List.cons_append],
        fun y hy => by
          rcases List.mem_cons.mp hy with rfl | hy
          · exact hpa
          · exact hL y hy, hx⟩

theorem jaroFind_eq_find (c : Char) : ∀ (t : List Char) (us : List Bool) (curr lo hi : ℕ),
    jaroFind c t us curr lo hi =
      (availFrom c t us curr).find? (fun j => decide (lo ≤ j) && decide (j < hi)) := by
  intro t
  induction t with
  | nil => intro us curr lo hi; cases us <;> rfl
  | cons b t ih =>
    intro us curr lo hi
    cases us with
    | nil => rfl
    | cons u us =>
      rw [jaroFind, availFrom]
      by_cases hcu : b = c ∧ u = false
      · rw [if_pos hcu]
        by_cases hw : lo ≤ curr ∧ curr < hi
        · rw [if_pos ⟨hw.1, hw.2, hcu.1, hcu.2⟩,
            List.find?_cons_of_pos _ (by simp [hw.1, hw.2])]
        · rw [if_neg (fun hcc => hw ⟨hcc.1, hcc.2.1⟩),
            List.find?_cons_of_neg _ (by
              simp only [Bool.and_eq_true, decide_eq_true_eq, not_and]
              intro h1 h2
              exact hw ⟨h1, h2⟩)]
          exact ih us (curr + 1) lo hi
      · rw [if_neg (fun h => hcu ⟨h.2.2.1, h.2.2.2⟩), if_neg hcu]
        exact ih us (curr + 1) lo hi

theorem twoPtr_nil_left (w : ℕ) (J : List ℕ) : twoPtr w [] J = [] := by
  cases J <;> simp [twoPtr]

theorem twoPtr_nil_right (w : ℕ) (I : List ℕ) : twoPtr w I [] = [] := by
  cases I <;> simp [twoPtr]

theorem twoPtr_cons (w i j : ℕ) (I J : List ℕ) :
    twoPtr w (i :: I) (j :: J) =
      if j + w < i then twoPtr w (i :: I) J
      else if i + w < j then twoPtr w I (j :: J)
      else (i, j) :: twoPtr w I J := by
  rw [twoPtr]

theorem twoPtr_symm (w : ℕ) : ∀ (I J : List ℕ),
    twoPtr w I J = (twoPtr w J I).map Prod.swap := by
  have H : ∀ (n : ℕ) (I J : List ℕ), I.length + J.length = n →
      twoPtr w I J = (twoPtr w J I).map Prod.swap := by
    intro n
    induction n using Nat.strong_induction_on with
    | _ n ih =>
      intro I J hn
      cases I with
      | nil => rw [twoPtr_nil_left, twoPtr_nil_right]; rfl
      | cons i I =>
        cases J with
        | nil => rw [twoPtr_nil_left, twoPtr_nil_right]; rfl
        | cons j J =>
          rw [twoPtr_cons, twoPtr_cons]
          by_cases h1 : j + w < i
          · rw [if_pos h1, if_neg (by omega), if_pos h1]
            exact ih ((i :: I).length + J.length) (by simp at hn ⊢; omega)
              (i :: I) J (by simp)
          · rw [if_neg h1]
            by_cases h2 : i + w < j
            · rw [if_pos h2, if_pos h2]
              exact ih (I.length + (j :: J).length) (by simp at hn ⊢; omega)
                I (j :: J) (by simp)
            · rw [if_neg h2, if_neg h2, if_neg h1, List.map_cons]
              rw [ih (I.length + J.length) (by simp at hn ⊢; omega) I J rfl]
              rfl
  exact fun I J => H (I.length + J.length) I J rfl

theorem twoPtr_skip_lows (w : ℕ) : ∀ (lows I J : List ℕ),
    (∀ j0 ∈ lows, ∀ i' ∈ I, j0 + w < i') → twoPtr w I (lows ++ J) = twoPtr w I J := by
  intro lows
  induction lows with
  | nil => intro I J _; rfl
  | cons j0 lows ih =>
    intro I J h
    cases I with
    | nil => rw [twoPtr_nil_left, twoPtr_nil_left]
    | cons i I =>
      have hj0 : j0 + w < i := h j0 (by simp) i (by simp)
      rw [List.cons_append, twoPtr_cons, if_pos hj0]
      exact ih (i :: I) J (fun y hy i' hi' => h y (by simp [hy]) i' hi')

theorem twoPtr_drop_head (w i : ℕ) : ∀ (A I' : List ℕ),
    (∀ x ∈ A, x + w < i ∨ i + w < x) → (∀ i' ∈ I', i < i') →
    twoPtr w (i :: I') A = twoPtr w I' A := by
  intro A
  induction A with
  | nil => intro I' _ _; rw [twoPtr_nil_right, twoPtr_nil_right]
  | cons x A ih =>
    intro I' hA hI
    rcases hA x (by simp) with hlt | hgt
    · rw [twoPtr_cons, if_pos hlt,
        ih I' (fun y hy => hA y (by simp [hy])) hI]
      cases I' with
      | nil => rw [twoPtr_nil_left, twoPtr_nil_left]
      | cons i2 I2 =>
        rw [twoPtr_cons, if_pos (lt_trans hlt (hI i2 (by simp)))]
    · rw [twoPtr_cons, if_neg (by omega), if_pos hgt]

/-- The heart of Jaro symmetry: restricted to any one character value `c`,
the greedy matching loop produces exactly the two-pointer matching of the
ascending `c`-position lists of the two strings. -/
theorem classPairs_eq_twoPtr (s2 : List Char) (w : ℕ) :
    ∀ (s1 : List Char) (i : ℕ) (used : List Bool) (c : Char),
    classPairs c (jaroPairs s2 w s1 i used) =
      twoPtr w (occsFrom c s1 i) (availFrom c s2 used 0) := by
  intro s1
  induction s1 with
  | nil =>
    intro i used c
    rw [show jaroPairs s2 w [] i used = [] from rfl, show occsFrom c [] i = [] from rfl,
      twoPtr_nil_left]
    rfl
  | cons a s1 ih =>
    intro i used c
    rw [jaroPairs]
    cases hf : jaroFind a s2 used 0 (i - w) (i + w + 1) with
    | some j =>
      rw [jaroFind_eq_find] at hf
      obtain ⟨L, R, hA, hL, hj⟩ := find_split _ _ _ hf
      simp only [Bool.and_eq_true, decide_eq_true_eq] at hj
      have hsort := availFrom_sorted a s2 used 0
      rw [hA] at hsort
      have hsplit := List.pairwise_append.mp hsort
      have hLlt : ∀ y ∈ L, y < i - w := by
        intro y hy
        have hyj : y < j := hsplit.2.2 y hy j (by simp)
        have := hL y hy
        simp only [Bool.and_eq_true, decide_eq_true_eq, Bool.and_eq_false_iff,
          decide_eq_false_iff_not, not_le, not_lt] at this
        rcases this with h | h
        · exact h
        · omega
      have hjmem : j ∈ availFrom a s2 used 0 := by rw [hA]; simp
      obtain ⟨k, hk, hs2j, husj⟩ := availFrom_mem a s2 used 0 j hjmem
      have hkj : j = k := by omega
      subst hkj
      by_cases hca : a = c
      · subst hca
        have hlhs : classPairs a ((a, i, j) :: jaroPairs s2 w s1 (i + 1) (setFlag used j)) =
            (i, j) :: classPairs a (jaroPairs s2 w s1 (i + 1) (setFlag used j)) := by
          simp [classPairs]
        rw [hlhs, ih (i + 1) (setFlag used j) a]
        rw [avail_setFlag_self a s2 used j 0 hs2j husj, Nat.zero_add, hA,
          List.erase_append_right _ (by
            intro hmem
            exact absurd (hsplit.2.2 j hmem j (by simp)) (lt_irrefl j)),
          List.erase_cons_head]
        have hocc : occsFrom a (a :: s1) i = i :: occsFrom a s1 (i + 1) := by
          rw [occsFrom, if_pos rfl]
        rw [hocc]
        have hge : ∀ i' ∈ occsFrom a s1 (i + 1), i + 1 ≤ i' := occsFrom_ge a s1 (i + 1)
        rw [twoPtr_skip_lows w L (i :: occsFrom a s1 (i + 1)) (j :: R) (by
          intro y hy i' hi'
          have hylt := hLlt y hy
          rcases List.mem_cons.mp hi' with rfl | hi'
          · omega
          · have := hge i' hi'; omega)]
        rw [twoPtr_cons, if_neg (by omega), if_neg (by omega)]
        congr 1
        exact twoPtr_skip_lows w L _ R (by
          intro y hy i' hi'
          have hylt := hLlt y hy
          have := hge i' hi'
          omega)
      · have hlhs : classPairs c ((a, i, j) :: jaroPairs s2 w s1 (i + 1) (setFlag used j)) =
            classPairs c (jaroPairs s2 w s1 (i + 1) (setFlag used j)) := by
          simp [classPairs, hca]
        rw [hlhs, ih (i + 1) (setFlag used j) c]
        rw [avail_setFlag_ne c a hca s2 used j 0 hs2j]
        rw [show occsFrom c (a :: s1) i = occsFrom c s1 (i + 1) from by
          rw [occsFrom, if_neg hca]]
    | none =>
      rw [jaroFind_eq_find] at hf
      have hnone := List.find?_eq_none.mp hf
      by_cases hca : a = c
      · subst hca
        rw [ih (i + 1) used a]
        rw [show occsFrom a (a :: s1) i = i :: occsFrom a s1 (i + 1) from by
          rw [occsFrom, if_pos rfl]]
        rw [twoPtr_drop_head w i (availFrom a s2 used 0) (occsFrom a s1 (i + 1))
          (by
            intro x hx
            have := hnone x hx
            simp only [Bool.and_eq_true, decide_eq_true_eq, not_and, not_lt] at this
            by_cases hxl : i - w ≤ x
            · right; have := this hxl; omega
            · left; omega)
          (fun i' hi' => lt_of_lt_of_le (Nat.lt_succ_self i) (occsFrom_ge a s1 (i + 1) i' hi'))]
      · rw [ih (i + 1) used c]
        rw [show occsFrom c (a :: s1) i = occsFrom c s1 (i + 1) from by
          rw [occsFrom, if_neg hca]]

theorem mem_classPairs (c : Char) (ps : List (Char × ℕ × ℕ)) (x y : ℕ) :
    (x, y) ∈ classPairs c ps ↔ (c, x, y) ∈ ps := by
  unfold classPairs
  rw [List.mem_filterMap]
  constructor
  · rintro ⟨⟨c', x', y'⟩, hmem, heq⟩
    by_cases hc : c' = c
    · rw [if_pos hc] at heq
      simp only [Option.some.injEq] at heq
      subst hc
      simp only [Prod.mk.injEq] at heq
      obtain ⟨rfl, rfl⟩ := heq
      exact hmem
    · rw [if_neg hc] at heq
      exact absurd heq (by simp)
  · intro h
    exact ⟨(c, x, y), h, by simp⟩

theorem jaroPairs_fst_ge (s2 : List Char) (w : ℕ) :
    ∀ (s1 : List Char) (i : ℕ) (used : List Bool),
    ∀ p ∈ jaroPairs s2 w s1 i used, i ≤ p.2.1 := by
  intro s1
  induction s1 with
  | nil => intro i used p hp; simp [jaroPairs] at hp
  | cons a s1 ih =>
    intro i used p hp
    rw [jaroPairs] at hp
    cases hf : jaroFind a s2 used 0 (i - w) (i + w + 1) with
    | some j =>
      rw [hf] at hp
      rcases List.mem_cons.mp hp with rfl | hp
      · simp
      · have := ih (i + 1) (setFlag used j) p hp; omega
    | none =>
      rw [hf] at hp
      have := ih (i + 1) used p hp; omega

theorem jaroPairs_fst_sorted (s2 : List Char) (w : ℕ) :
    ∀ (s1 : List Char) (i : ℕ) (used : List Bool),
    List.Sorted (· < ·) ((jaroPairs s2 w s1 i used).map (fun p => p.2.1)) := by
  intro s1
  induction s1 with
  | nil => intro i used; simp [jaroPairs]
  | cons a s1 ih =>
    intro i used
    rw [jaroPairs]
    cases hf : jaroFind a s2 used 0 (i - w) (i + w + 1) with
    | some j =>
      rw [List.map_cons, List.sorted_cons]
      refine ⟨?_, ih (i + 1) (setFlag used j)⟩
      intro x hx
      obtain ⟨p, hp, rfl⟩ := List.mem_map.mp hx
      exact lt_of_lt_of_le (Nat.lt_succ_self i)
        (jaroPairs_fst_ge s2 w s1 (i + 1) (setFlag used j) p hp)
    | none => exact ih (i + 1) used

theorem jaroPairs_char (s2 : List Char) (w : ℕ) :
    ∀ (s1 sfull : List Char) (i : ℕ) (used : List Bool), sfull.drop i = s1 →
    ∀ p ∈ jaroPairs s2 w s1 i used, sfull[p.2.1]? = some p.1 := by
  intro s1
  induction s1 with
  | nil => intro sfull i used _ p hp; simp [jaroPairs] at hp
  | cons a s1 ih =>
    intro sfull i used hdrop p hp
    have hi : sfull[i]? = some a := by
      have h0 : (sfull.drop i)[0]? = some a := by rw [hdrop]; simp
      rwa [List.getElem?_drop, Nat.add_zero] at h0
    have hdrop' : sfull.drop (i + 1) = s1 := by
      have h1 : (sfull.drop i).drop 1 = s1 := by rw [hdrop]; rfl
      rwa [List.drop_drop] at h1
    rw [jaroPairs] at hp
    cases hf : jaroFind a s2 used 0 (i - w) (i + w + 1) with
    | some j =>
      rw [hf] at hp
      rcases List.mem_cons.mp hp with rfl | hp
      · exact hi
      · exact ih sfull (i + 1) (setFlag used j) hdrop' p hp
    | none =>
      rw [hf] at hp
      exact ih sfull (i + 1) used hdrop' p hp

theorem map_fst_eq_charsAt (sfull : List Char) :
    ∀ ps : List (Char × ℕ × ℕ), (∀ p ∈ ps, sfull[p.2.1]? = some p.1) →
    ps.map (fun p => p.1) = charsAt sfull (ps.map (fun p => p.2.1)) := by
  intro ps
  induction ps with
  | nil => intro _; rfl
  | cons p ps ih =>
    intro h
    rw [List.map_cons, List.map_cons]
    unfold charsAt
    rw [List.filterMap_cons]
    rw [h p (by simp)]
    rw [ih (fun q hq => h q (by simp [hq]))]
    rfl

theorem trueIdxs_ge : ∀ (us : List Bool) (curr : ℕ), ∀ x ∈ trueIdxsFrom us curr, curr ≤ x := by
  intro us
  induction us with
  | nil => intro curr x hx; simp [trueIdxsFrom] at hx
  | cons u us ih =>
    intro curr x hx
    rw [trueIdxsFrom] at hx
    split_ifs at hx with hu
    · rcases List.mem_cons.mp hx with rfl | hx
      · omega
      · have := ih (curr + 1) x hx; omega
    · have := ih (curr + 1) x hx; omega

theorem trueIdxs_sorted : ∀ (us : List Bool) (curr : ℕ),
    List.Sorted (· < ·) (trueIdxsFrom us curr) := by
  intro us
  induction us with
  | nil => intro curr; simp [trueIdxsFrom]
  | cons u us ih =>
    intro curr
    rw [trueIdxsFrom]
    split_ifs with hu
    · rw [List.sorted_cons]
      exact ⟨fun x hx => lt_of_lt_of_le (Nat.lt_succ_self curr) (trueIdxs_ge us (curr + 1) x hx),
        ih (curr + 1)⟩
    · exact ih (curr + 1)

theorem trueIdxs_mem : ∀ (us : List Bool) (curr x : ℕ),
    x ∈ trueIdxsFrom us curr ↔ ∃ k, x = curr + k ∧ us[k]? = some true := by
  intro us
  induction us with
  | nil =>
    intro curr x
    simp [trueIdxsFrom]
  | cons u us ih =>
    intro curr x
    rw [trueIdxsFrom]
    constructor
    · intro hx
      split_ifs at hx with hu
      · rcases List.mem_cons.mp hx with rfl | hx
        · exact ⟨0, by omega, by simp [hu]⟩
        · obtain ⟨k, hk, hget⟩ := (ih (curr + 1) x).mp hx
          exact ⟨k + 1, by omega, by simpa using hget⟩
      · obtain ⟨k, hk, hget⟩ := (ih (curr + 1) x).mp hx
        exact ⟨k + 1, by omega, by simpa using hget⟩
    · rintro ⟨k, rfl, hget⟩
      cases k with
      | zero =>
        simp only [List.getElem?_cons_zero, Option.some.injEq] at hget
        rw [if_pos hget]
        simp
      | succ k =>
        simp only [List.getElem?_cons_succ] at hget
        have hmem : curr + 1 + k ∈ trueIdxsFrom us (curr + 1) :=
          (ih (curr + 1) _).mpr ⟨k, rfl, hget⟩
        have hx : curr + (k + 1) = curr + 1 + k := by omega
        split_ifs with hu
        · rw [hx]; exact List.mem_cons_of_mem _ hmem
        · rw [hx]; exact hmem

theorem flagged_eq_charsAt : ∀ (t : List Char) (flags : List Bool) (sfull : List Char)
    (curr : ℕ), sfull.drop curr = t →
    flaggedChars t flags = charsAt sfull (trueIdxsFrom flags curr) := by
  intro t
  induction t with
  | nil =>
    intro flags sfull curr hdrop
    rw [show flaggedChars [] flags = [] from by cases flags <;> rfl]
    have hlen : sfull.length ≤ curr := by
      have := congrArg List.length hdrop
      simp only [List.length_drop, List.length_nil] at this
      omega
    unfold charsAt
    symm
    rw [List.eq_nil_iff_forall_not_mem]
    intro c hc
    obtain ⟨j, hj, hget⟩ := List.mem_filterMap.mp hc
    have := trueIdxs_ge flags curr j hj
    rw [List.getElem?_eq_none (by omega)] at hget
    exact Option.noConfusion hget
  | cons b t ih =>
    intro flags sfull curr hdrop
    have hb : sfull[curr]? = some b := by
      have h0 : (sfull.drop curr)[0]? = some b := by rw [hdrop]; simp
      rwa [List.getElem?_drop, Nat.add_zero] at h0
    have hdrop' : sfull.drop (curr + 1) = t := by
      have h1 : (sfull.drop curr).drop 1 = t := by rw [hdrop]; rfl
      rwa [List.drop_drop] at h1
    cases flags with
    | nil => rfl
    | cons u us =>
      rw [flaggedChars, trueIdxsFrom]
      by_cases hu : u = true
      · rw [if_pos hu, if_pos hu]
        unfold charsAt
        rw [List.filterMap_cons, hb]
        rw [ih us sfull (curr + 1) hdrop']
        rfl
      · rw [if_neg hu, if_neg hu]
        exact ih us sfull (curr + 1) hdrop'

theorem sorted_lt_ext : ∀ (A B : List ℕ), List.Sorted (· < ·) A → List.Sorted (· < ·) B →
    (∀ x, x ∈ A ↔ x ∈ B) → A = B := by
  intro A
  induction A with
  | nil =>
    intro B _ _ hiff
    cases B with
    | nil => rfl
    | cons b B => exact absurd ((hiff b).mpr (by simp)) (by simp)
  | cons a A ih =>
    intro B hA hB hiff
    cases B with
    | nil => exact absurd ((hiff a).mp (by simp)) (by simp)
    | cons b B =>
      rw [List.sorted_cons] at hA hB
      have hab : a = b := by
        rcases List.mem_cons.mp ((hiff a).mp (by simp)) with h | h
        · exact h
        · rcases List.mem_cons.mp ((hiff b).mpr (by simp)) with h' | h'
          · exact h'.symm
          · exact absurd (lt_trans (hA.1 b h') (hB.1 a h)) (lt_irrefl a)
      subst hab
      congr 1
      apply ih B hA.2 hB.2
      intro x
      constructor
      · intro hx
        rcases List.mem_cons.mp ((hiff x).mp (by simp [hx])) with rfl | h
        · exact absurd (hA.1 x hx) (lt_irrefl x)
        · exact h
      · intro hx
        rcases List.mem_cons.mp ((hiff x).mpr (by simp [hx])) with rfl | h
        · exact absurd (hB.1 x hx) (lt_irrefl x)
        · exact h

theorem jaroLoop_snd_true (s2 : List Char) (w : ℕ) :
    ∀ (s1 : List Char) (i : ℕ) (used : List Bool) (j : ℕ),
    (jaroLoop s2 w s1 i used).2[j]? = some true ↔
      used[j]? = some true ∨ ∃ p ∈ jaroPairs s2 w s1 i used, p.2.2 = j := by
  intro s1
  induction s1 with
  | nil =>
    intro i used j
    simp [jaroLoop, jaroPairs]
  | cons a s1 ih =>
    intro i used j
    rw [jaroLoop, jaroPairs]
    cases hf : jaroFind a s2 used 0 (i - w) (i + w + 1) with
    | some j0 =>
      obtain ⟨k, hk, hklen, hkget⟩ := jaroFind_some a s2 used 0 _ _ j0 hf
      have hj0k : j0 = k := by omega
      subst hj0k
      have hget0 : used[j0]? = some false := hkget
      show (jaroLoop s2 w s1 (i + 1) (setFlag used j0)).2[j]? = some true ↔ _
      rw [ih (i + 1) (setFlag used j0) j]
      by_cases hj : j = j0
      · subst hj
        rw [setFlag_getElem_self used j false hget0]
        constructor
        · intro _
          exact Or.inr ⟨(a, i, j), by simp, rfl⟩
        · intro _
          exact Or.inl rfl
      · rw [setFlag_getElem_ne used j0 j (fun h => hj h.symm)]
        constructor
        · rintro (h | ⟨p, hp, hpj⟩)
          · exact Or.inl h
          · exact Or.inr ⟨p, by simp [hp], hpj⟩
        · rintro (h | ⟨p, hp, hpj⟩)
          · exact Or.inl h
          · rcases List.mem_cons.mp hp with rfl | hp
            · exact absurd hpj.symm hj
            · exact Or.inr ⟨p, hp, hpj⟩
    | none =>
      show (jaroLoop s2 w s1 (i + 1) used).2[j]? = some true ↔ _
      rw [ih (i + 1) used j]

theorem flagged_length : ∀ (t : List Char) (flags : List Bool), flags.length = t.length →
    (flaggedChars t flags).length = flags.count true := by
  intro t
  induction t with
  | nil =>
    intro flags hlen
    cases flags with
    | nil => rfl
    | cons u us => simp at hlen
  | cons b t ih =>
    intro flags hlen
    cases flags with
    | nil => simp at hlen
    | cons u us =>
      rw [flaggedChars]
      simp only [List.length_cons] at hlen
      by_cases hu : u = true
      · subst hu
        rw [if_pos rfl]
        simp [List.count_cons, ih us (by omega)]
      · rw [if_neg hu]
        have hu' : u = false := by cases u <;> simp_all
        subst hu'
        simp [List.count_cons, ih us (by omega)]

/-- The transpose property: the characters of `s2` matched when `s2` is fed
through the loop against `s1` are exactly the flagged characters of `s2`
from the run of `s1` against `s2`. -/
theorem jaroLoop_transpose (s1 s2 : List Char) (w : ℕ) :
    (jaroLoop s1 w s2 0 (List.replicate s1.length false)).1 =
      flaggedChars s2 (jaroLoop s2 w s1 0 (List.replicate s2.length false)).2 := by
  rw [jaroLoop_fst_eq]
  rw [map_fst_eq_charsAt s2 _ (jaroPairs_char s1 w s2 s2 0 _ (by simp))]
  rw [flagged_eq_charsAt s2 (jaroLoop s2 w s1 0 (List.replicate s2.length false)).2 s2 0
    (by simp)]
  congr 1
  apply sorted_lt_ext
  · exact jaroPairs_fst_sorted s1 w s2 0 _
  · exact trueIdxs_sorted _ 0
  · intro x
    rw [trueIdxs_mem]
    have lhs_iff : x ∈ (jaroPairs s1 w s2 0 (List.replicate s1.length false)).map
        (fun p => p.2.1) ↔
        ∃ c y, (c, x, y) ∈ jaroPairs s1 w s2 0 (List.replicate s1.length false) := by
      rw [List.mem_map]
      constructor
      · rintro ⟨⟨c, x', y⟩, hp, hx⟩
        simp only at hx
        subst hx
        exact ⟨c, y, hp⟩
      · rintro ⟨c, y, h⟩
        exact ⟨(c, x, y), h, rfl⟩
    rw [lhs_iff]
    have rhs_iff : (∃ k, x = 0 + k ∧
        (jaroLoop s2 w s1 0 (List.replicate s2.length false)).2[k]? = some true) ↔
        (jaroLoop s2 w s1 0 (List.replicate s2.length false)).2[x]? = some true := by
      constructor
      · rintro ⟨k, hk, h⟩
        rwa [show x = k from by omega]
      · intro h
        exact ⟨x, by omega, h⟩
    rw [rhs_iff, jaroLoop_snd_true s2 w s1 0 _ x]
    have hrepl : ¬ (List.replicate s2.length false)[x]? = some true := by
      intro h
      rcases lt_or_ge x s2.length with hx | hx
      · rw [List.getElem?_replicate, if_pos hx] at h
        exact Bool.noConfusion (Option.some.inj h)
      · rw [List.getElem?_eq_none (by simpa using hx)] at h
        exact Option.noConfusion h
    constructor
    · rintro ⟨c, y, hmem⟩
      right
      have h1 : (x, y) ∈ classPairs c (jaroPairs s1 w s2 0 (List.replicate s1.length false)) :=
        (mem_classPairs c _ x y).mpr hmem
      rw [classPairs_eq_twoPtr s1 w s2 0 _ c, avail_replicate c s1 s1.length 0 (le_refl _),
        twoPtr_symm] at h1
      obtain ⟨⟨y', x'⟩, hyx, hswap⟩ := List.mem_map.mp h1
      simp only [Prod.swap_prod_mk, Prod.mk.injEq] at hswap
      rw [hswap.1, hswap.2] at hyx
      have h2 : (c, y, x) ∈ jaroPairs s2 w s1 0 (List.replicate s2.length false) := by
        rw [← mem_classPairs c]
        rw [classPairs_eq_twoPtr s2 w s1 0 _ c, avail_replicate c s2 s2.length 0 (le_refl _)]
        exact hyx
      exact ⟨(c, y, x), h2, rfl⟩
    · rintro (h | ⟨⟨c, i', j'⟩, hp, hj⟩)
      · exact absurd h hrepl
      · simp only at hj
        rw [hj] at hp
        have h1 : (i', x) ∈ classPairs c (jaroPairs s2 w s1 0 (List.replicate s2.length false)) :=
          (mem_classPairs c _ i' x).mpr hp

        rw [classPairs_eq_twoPtr s2 w s1 0 _ c, avail_replicate c s2 s2.length 0 (le_refl _)] at h1
        have h2 : (x, i') ∈ classPairs c (jaroPairs s1 w s2 0 (List.replicate s1.length false)) := by
          rw [classPairs_eq_twoPtr s1 w s2 0 _ c, avail_replicate c s1 s1.length 0 (le_refl _),
            twoPtr_symm]
          exact List.mem_map.mpr ⟨(i', x), h1, rfl⟩
        exact ⟨c, i', (mem_classPairs c _ x i').mp h2⟩

/-- The Jaro similarity is symmetric. -/
theorem jaro_comm (s1 s2 : List Char) : jaro s1 s2 = jaro s2 s1 := by
  by_cases h1 : s1 = []
  · by_cases h2 : s2 = []
    · subst h1; subst h2; rfl
    · subst h1
      rw [show jaro [] s2 = 0 from by simp [jaro, h2],
        show jaro s2 [] = 0 from by simp [jaro, h2]]
  · by_cases h2 : s2 = []
    · subst h2
      rw [show jaro s1 [] = 0 from by simp [jaro, h1],
        show jaro [] s1 = 0 from by simp [jaro, h1]]
    · have hA := jaroLoop_transpose s1 s2 (max s1.length s2.length / 2 - 1)
      have hB := jaroLoop_transpose s2 s1 (max s1.length s2.length / 2 - 1)
      have hlen2 : (jaroLoop s2 (max s1.length s2.length / 2 - 1) s1 0
          (List.replicate s2.length false)).2.length = s2.length := by
        rw [jaroLoop_snd_length]; simp
      have hm : (jaroLoop s1 (max s1.length s2.length / 2 - 1) s2 0
            (List.replicate s1.length false)).1.length =
          (jaroLoop s2 (max s1.length s2.length / 2 - 1) s1 0
            (List.replicate s2.length false)).1.length := by
        rw [hA, flagged_length s2 _ hlen2]
        have hc := jaroLoop_count s2 (max s1.length s2.length / 2 - 1) s1 0
          (List.replicate s2.length false)
        rw [hc, List.count_replicate]
        simp
      have ht : mismatchCount
            (jaroLoop s1 (max s1.length s2.length / 2 - 1) s2 0
              (List.replicate s1.length false)).1
            (flaggedChars s1 (jaroLoop s1 (max s1.length s2.length / 2 - 1) s2 0
              (List.replicate s1.length false)).2) =
          mismatchCount
            (jaroLoop s2 (max s1.length s2.length / 2 - 1) s1 0
              (List.replicate s2.length false)).1
            (flaggedChars s2 (jaroLoop s2 (max s1.length s2.length / 2 - 1) s1 0
              (List.replicate s2.length false)).2) := by
        rw [hA, ← hB, mismatchCount_comm]
      simp only [jaro]
      rw [if_neg (show ¬(s1 = [] ∧ s2 = []) from fun h => h1 h.1),
        if_neg (show ¬(s1 = [] ∨ s2 = []) from by rintro (h | h); exacts [h1 h, h2 h]),
        if_neg (show ¬(s2 = [] ∧ s1 = []) from fun h => h2 h.1),
        if_neg (show ¬(s2 = [] ∨ s1 = []) from by rintro (h | h); exacts [h2 h, h1 h])]
      rw [Nat.max_comm s2.length s1.length]
      rw [hm, ht]
      by_cases hm0 : (jaroLoop s2 (max s1.length s2.length / 2 - 1) s1 0
          (List.replicate s2.length false)).1.length = 0
      · rw [if_pos hm0, if_pos hm0]
      · rw [if_neg hm0, if_neg hm0]
        ring

/-- The Jaro-Winkler similarity is symmetric. -/
theorem jaro_winkler_comm (s1 s2 : List Char) : jaro_winkler s1 s2 = jaro_winkler s2 s1 := by
  simp only [jaro_winkler]
  rw [jaro_comm s1 s2, commonPfxLen_comm s1 s2]

/-! ## Claim theorems about self-similarity, ranges, symmetry and `compare` -/

/-- C4: comparing any string with itself yields exactly 1.0 for each of
the six lexical methods. -/
theorem c4_self_similarity (s : List Char) :
    normalize_levenshtein s s = 1 ∧ jaro s s = 1 ∧ jaro_winkler s s = 1 ∧
    ratio s s = 1 ∧ jaccard s s = 1 ∧ sorensen s s = 1 := by
  refine ⟨normalize_levenshtein_self s, jaro_self s, ?_, ratio_self s,
    jaccard_self s, sorensen_self s⟩
  simp only [jaro_winkler]
  rw [jaro_self]
  norm_num

/-- C6: every lexical score lies in the closed interval [0, 1]. -/
theorem c6_score_range (s1 s2 : List Char) :
    (0 ≤ normalize_levenshtein s1 s2 ∧ normalize_levenshtein s1 s2 ≤ 1) ∧
    (0 ≤ jaro s1 s2 ∧ jaro s1 s2 ≤ 1) ∧
    (0 ≤ jaro_winkler s1 s2 ∧ jaro_winkler s1 s2 ≤ 1) ∧
    (0 ≤ ratio s1 s2 ∧ ratio s1 s2 ≤ 1) ∧
    (0 ≤ jaccard s1 s2 ∧ jaccard s1 s2 ≤ 1) ∧
    (0 ≤ sorensen s1 s2 ∧ sorensen s1 s2 ≤ 1) :=
  ⟨normalize_levenshtein_bounds s1 s2, jaro_bounds s1 s2, jaro_winkler_bounds s1 s2,
   ratio_bounds s1 s2, jaccard_bounds s1 s2, sorensen_bounds s1 s2⟩

/-- C5 counterexample: the Ratcliff/Obershelp ratio is *not* symmetric.
For "ba" vs "abca" the recursive matching finds 2 matched characters
(score 2/3), but for "abca" vs "ba" the earliest longest block is "a" at
position 0, after which only 1 character total matches (score 1/3). -/
theorem c5_symmetry_counterexample :
    ratio ['b', 'a'] ['a', 'b', 'c', 'a'] ≠ ratio ['a', 'b', 'c', 'a'] ['b', 'a'] := by
  have h1 : ratcliffM ['b', 'a'] ['a', 'b', 'c', 'a'] = 2 := by decide
  have h2 : ratcliffM ['a', 'b', 'c', 'a'] ['b', 'a'] = 1 := by decide
  unfold ratio
  rw [h1, h2]
  norm_num

/-- C5 amended: five of the six lexical methods are symmetric — Levenshtein,
Jaro, Jaro-Winkler, Jaccard and Sorensen-Dice give equal scores on (s1, s2)
and (s2, s1); the Ratcliff/Obershelp ratio is the exception (see the
counterexample). -/
theorem c5_symmetry_amended (s1 s2 : List Char) :
    normalize_levenshtein s1 s2 = normalize_levenshtein s2 s1 ∧
    jaro s1 s2 = jaro s2 s1 ∧
    jaro_winkler s1 s2 = jaro_winkler s2 s1 ∧
    jaccard s1 s2 = jaccard s2 s1 ∧
    sorensen s1 s2 = sorensen s2 s1 :=
  ⟨normalize_levenshtein_comm s1 s2, jaro_comm s1 s2, jaro_winkler_comm s1 s2,
   jaccard_comm s1 s2, sorensen_comm s1 s2⟩

/-- C1 (as stated) fails on the code: with a provider that always raises,
the comparison result contains no semantic entry at all (failed or
otherwise), and nothing — the six lexical entries included — is displayed,
because the rendering loop sits inside the same `try` block. -/
theorem c1_provider_failure_counterexample :
    "Semantic (OpenAI)" ∉
      ((compare (fun _ => Except.error "network error") ['a'] ['b']).similarities.map
        Prod.fst) ∧
    (compare (fun _ => Except.error "network error") ['a'] ['b']).displayed = [] := by
  constructor
  · simp [compare, lexicalEntries]
  · rfl

/-- C1 amended: on provider failure the six lexical entries do survive in
the `similarities` mapping and the exception is caught (the comparison
does not throw) and reported as a single human-readable error banner; but
no semantic entry marked as failed is added to the mapping, and the
display of every entry — the lexical ones included — is skipped. -/
theorem c1_provider_failure (provider : List Char → Except String (List ℝ))
    (s1 s2 : List Char) (_h1 : s1 ≠ []) (_h2 : s2 ≠ []) (msg : String)
    (hp : provider s1 = Except.error msg ∨
      (∃ e1, provider s1 = Except.ok e1 ∧ provider s2 = Except.error msg)) :
    (compare provider s1 s2).similarities = lexicalEntries s1 s2 ∧
    (compare provider s1 s2).errorMsg =
      some ("Error calculating similarities: " ++ msg) ∧
    (compare provider s1 s2).displayed = [] := by
  rcases hp with h | ⟨e1, he1, he2⟩
  · simp [compare, h]
  · simp [compare, he1, he2]

/-- Instantiation of the amended C1 with a provider that always fails. -/
theorem c1_provider_failure_witness :
    (compare (fun _ => Except.error "boom") ['a'] ['b']).similarities =
      lexicalEntries ['a'] ['b'] ∧
    (compare (fun _ => Except.error "boom") ['a'] ['b']).errorMsg =
      some ("Error calculating similarities: " ++ "boom") ∧
    (compare (fun _ => Except.error "boom") ['a'] ['b']).displayed = [] :=
  c1_provider_failure _ ['a'] ['b'] (by simp) (by simp) "boom" (Or.inl rfl)

/-- C7 (as stated) fails on the code: when the provider fails there is no
"Semantic (OpenAI)" key, so the insertion order is not the full
seven-method order for every comparison. -/
theorem c7_insertion_order_counterexample :
    (compare (fun _ => Except.error "network error") ['a'] ['b']).similarities.map
        Prod.fst ≠
      ["Levenshtein", "Jaro", "Jaro-Winkler", "Ratcliff/Obershelp", "Jaccard",
        "Sorensen-Dice", "Semantic (OpenAI)"] := by
  simp [compare, lexicalEntries]

/-- C7 amended: the `similarities` mapping always lists its keys, without
duplicates, in a prefix of the fixed evaluation order — all seven methods
when both provider calls succeed, the six lexical ones (with the error
banner set) when a provider call fails. -/
theorem c7_insertion_order (provider : List Char → Except String (List ℝ))
    (s1 s2 : List Char) :
    ((compare provider s1 s2).similarities.map Prod.fst).Nodup ∧
    ((compare provider s1 s2).similarities.map Prod.fst =
        ["Levenshtein", "Jaro", "Jaro-Winkler", "Ratcliff/Obershelp", "Jaccard",
          "Sorensen-Dice", "Semantic (OpenAI)"] ∨
      ((compare provider s1 s2).similarities.map Prod.fst =
        ["Levenshtein", "Jaro", "Jaro-Winkler", "Ratcliff/Obershelp", "Jaccard",
          "Sorensen-Dice"] ∧ (compare provider s1 s2).errorMsg.isSome)) ∧
    (∀ e1 e2, provider s1 = Except.ok e1 → provider s2 = Except.ok e2 →
      (compare provider s1 s2).similarities.map Prod.fst =
        ["Levenshtein", "Jaro", "Jaro-Winkler", "Ratcliff/Obershelp", "Jaccard",
          "Sorensen-Dice", "Semantic (OpenAI)"]) := by
  cases hs1 : provider s1 with
  | error e =>
    refine ⟨by simp [compare, hs1, lexicalEntries], ?_, ?_⟩
    · right
      constructor
      · simp [compare, hs1, lexicalEntries]
      · simp [compare, hs1, lexicalEntries]
    · intro e1 e2 h1 h2
      simp [hs1] at h1
  | ok e1 =>
    cases hs2 : provider s2 with
    | error e =>
      refine ⟨by simp [compare, hs1, hs2, lexicalEntries], ?_, ?_⟩
      · right
        constructor
        · simp [compare, hs1, hs2, lexicalEntries]
        · simp [compare, hs1, hs2, lexicalEntries]
      · intro f1 f2 h1 h2
        simp [hs2] at h2
    | ok e2 =>
      refine ⟨by simp [compare, hs1, hs2, lexicalEntries], ?_, ?_⟩
      · left
        simp [compare, hs1, hs2, lexicalEntries]
      · intro f1 f2 _ _
        simp [compare, hs1, hs2, lexicalEntries]

/-- Instantiation of the amended C7 with an always-succeeding provider:
all seven keys in order. -/
theorem c7_insertion_order_witness :
    (compare (fun _ => Except.ok [1]) ['a'] ['b']).similarities.map Prod.fst =
      ["Levenshtein", "Jaro", "Jaro-Winkler", "Ratcliff/Obershelp", "Jaccard",
        "Sorensen-Dice", "Semantic (OpenAI)"] :=
  (c7_insertion_order (fun _ => Except.ok [1]) ['a'] ['b']).2.2 [1] [1] rfl rfl

/-- C8: on provider success the semantic entry stores exactly
`1 - cosine_distance(embedding1, embedding2)`; no clamping is applied
(the formula can store values outside [0,1], e.g. −1 for opposite
one-dimensional vectors). -/
theorem c8_semantic_cosine (provider : List Char → Except String (List ℝ))
    (s1 s2 : List Char) (e1 e2 : List ℝ)
    (h1 : provider s1 = Except.ok e1) (h2 : provider s2 = Except.ok e2) :
    (compare provider s1 s2).similarities.getLast? =
      some ("Semantic (OpenAI)", 1 - cosine e1 e2) ∧
    ∃ u v : List ℝ, cosine_similarity u v < 0 := by
  constructor
  · simp [compare, h1, h2, cosine_similarity, lexicalEntries]
  · refine ⟨[1], [-1], ?_⟩
    have hd : dotProd [(1 : ℝ)] [(-1 : ℝ)] = -1 := by
      simp [dotProd]
    have hn : vecNorm [(1 : ℝ)] = 1 := by
      simp [vecNorm, dotProd, Real.sqrt_one]
    have hn' : vecNorm [(-1 : ℝ)] = 1 := by
      simp [vecNorm, dotProd]
    rw [cosine_similarity, cosine, hd, hn, hn']
    norm_num

/-- Instantiation of C8 with a concrete succeeding provider. -/
theorem c8_semantic_cosine_witness :
    (compare (fun _ => Except.ok [1]) ['a'] ['b']).similarities.getLast? =
      some ("Semantic (OpenAI)", 1 - cosine [1] [1]) ∧
    ∃ u v : List ℝ, cosine_similarity u v < 0 :=
  c8_semantic_cosine (fun _ => Except.ok [1]) ['a'] ['b'] [1] [1] rfl rfl

/-- C9: the six lexical entries of the mapping are always exactly the
values of the six total lexical score functions, whatever the provider
does — they are computed before the `try` block, never replaced by
defaults, and a provider failure cannot touch them. -/
theorem c9_lexical_unconditional (provider : List Char → Except String (List ℝ))
    (s1 s2 : List Char) :
    (compare provider s1 s2).similarities.take 6 = lexicalEntries s1 s2 := by
  cases hs1 : provider s1 with
  | error e => simp [compare, hs1, lexicalEntries]
  | ok e1 =>
    cases hs2 : provider s2 with
    | error e => simp [compare, hs1, hs2, lexicalEntries]
    | ok e2 => simp [compare, hs1, hs2, lexicalEntries]

end Semantik
